import Mathlib

/-!
# testdep: dependency graph of test functions

A shallow embedding of `graph.go` and `errors.go`.

Modelling conventions.

* A Go function value `func(*testing.T)` is an `Option Nat`: `none` is the nil
  function, `some p` a function whose code pointer (what `reflect.ValueOf(fn).Pointer()`
  returns) is `p`.
* A `*node` is represented by the `mapKey` of the node it points to.  Nodes are
  allocated only by `blank`, which stores the fresh node in `Graph.all` under its
  own key, and nothing is ever removed from `Graph.all`; so a pointer and a key
  determine each other.  Reading through a pointer is `Graph.deref`, writing
  through a pointer is `Graph.modify`.
* The map `Graph.all` is the list of its nodes (the entry for key `k` is the node
  whose `mapKey` is `k`); the maps `noDep` and `stillHas` of `Validate` are lists
  used as sets and association lists.
* Ranging over `noDep` to pluck one element is unordered in Go.  The plucked
  element is chosen by an oracle `pick : Nat → Nat`: at the `i`-th iteration of the
  main loop the element at position `pick i % len(noDep)` is taken.  Every
  sequence of choices is given by some oracle.
* A panic is an explicit error result; operations that mutate the graph before
  panicking return the graph reached at the panic as well.
* The reporting context `*testing.T` is the function `Run`, giving for a name and
  a function whether the sub-test passed.  Callables do not touch the graph.
-/

namespace testdep

/-- Error values declared in errors.go. -/
inductive Error where
  | NilFuncErr
  | CyclicDependencyErr
  | FunctionAlreadyPresentErr
  | FunctionNotExecutedErr
deriving DecidableEq, Repr

/-- The struct `node`; `requires` holds node pointers. -/
structure node where
  fn : Nat
  name : String
  mapKey : Nat
  requires : List Nat
  done : Bool
  failed : Bool
deriving DecidableEq, Repr

/-- The struct `Graph`; `topoSorted` holds node pointers. -/
structure Graph where
  all : List node
  topoSorted : List Nat
  validated : Bool
deriving DecidableEq, Repr

/-- The constructor `New`. -/
def New : Graph := { all := [], topoSorted := [], validated := false }

/-- The map read `g.all[key]`. -/
def Graph.lookup (g : Graph) (key : Nat) : Option node :=
  g.all.find? (fun n => n.mapKey == key)

/-- The keys of the map `g.all`. -/
def Graph.keys (g : Graph) : List Nat := g.all.map node.mapKey

/-- Zero-valued node for a key, as `blank` allocates it. -/
def node.fresh (key : Nat) : node :=
  { fn := key, name := "", mapKey := key, requires := [], done := false, failed := false }

/-- Reading the node a pointer refers to. -/
def Graph.deref (g : Graph) (p : Nat) : node :=
  (g.lookup p).getD (node.fresh p)

/-- Writing through a node pointer. -/
def Graph.modify (g : Graph) (p : Nat) (f : node → node) : Graph :=
  { g with all := g.all.map (fun n => if n.mapKey = p then f n else n) }

/-- The function `getKey`: panics on the nil function. -/
def getKey (fn : Option Nat) : Except Error Nat :=
  match fn with
  | none => .error .NilFuncErr
  | some p => .ok p

/-- The method `blank`: allocate and register a node, panic if the key is taken. -/
def blank (g : Graph) (fn : Option Nat) : Except Error (Graph × Nat) :=
  match getKey fn with
  | .error e => .error e
  | .ok key =>
    match g.lookup key with
    | some _ => .error .FunctionAlreadyPresentErr
    | none => .ok ({ g with all := g.all ++ [node.fresh key] }, key)

/-- The method `getNode`: the registered node of a function, created if absent. -/
def getNode (g : Graph) (fn : Option Nat) : Except Error (Graph × Nat) :=
  match getKey fn with
  | .error e => .error e
  | .ok key =>
    match g.lookup key with
    | some n => .ok (g, n.mapKey)
    | none => blank g fn

/-- The first loop of `Require`: resolve every required function in order.  On a
panic the graph reached so far is returned with the error. -/
def getNodes (g : Graph) : List (Option Nat) → Graph × Except Error (List Nat)
  | [] => (g, .ok [])
  | fn :: rest =>
    match getNode g fn with
    | .error e => (g, .error e)
    | .ok (g1, r) =>
      match getNodes g1 rest with
      | (g2, .error e) => (g2, .error e)
      | (g2, .ok rs) => (g2, .ok (r :: rs))

/-- The labelled loop `Outer` of `Require`: append every pointer not yet present. -/
def addRequires (g : Graph) (b : Nat) : List Nat → Graph
  | [] => g
  | r :: rest =>
    if r ∈ (g.deref b).requires then addRequires g b rest
    else addRequires (g.modify b (fun x => { x with requires := x.requires ++ [r] })) b rest

/-- The method `Require`; the second component is the panic value, if any. -/
def Require (g : Graph) (before : Option Nat) (require : List (Option Nat)) :
    Graph × Option Error :=
  let g0 := { g with validated := false }
  match getNode g0 before with
  | .error e => (g0, some e)
  | .ok (g1, b) =>
    match getNodes g1 require with
    | (g2, .error e) => (g2, some e)
    | (g2, .ok rns) => (addRequires g2 b rns, none)

/-- The method `Name`; the second component is the panic value, if any. -/
def Name (g : Graph) (fn : Option Nat) (name : String) : Graph × Option Error :=
  match getNode g fn with
  | .error e => (g, some e)
  | .ok (g1, p) => (g1.modify p (fun x => { x with name := name }), none)

/-- The method `NameAll`: `Name` on each pair, stopping at the first panic. -/
def NameAll (g : Graph) : List (Option Nat × String) → Graph × Option Error
  | [] => (g, none)
  | pair :: rest =>
    match Name g pair.1 pair.2 with
    | (g1, some e) => (g1, some e)
    | (g1, none) => NameAll g1 rest

/-! ### Validate -/

/-- Setting `s[k] = true` in a `map[*node]bool` used as a set. -/
def setInsert (s : List Nat) (k : Nat) : List Nat :=
  if k ∈ s then s else s ++ [k]

/-- The builtin `delete(s, k)` on a set. -/
def setDelete (s : List Nat) (k : Nat) : List Nat :=
  s.filter (fun x => x != k)

/-- Reading `m[k]` in a map of sets; a missing entry reads as the empty set. -/
def mapGet (m : List (Nat × List Nat)) (k : Nat) : List Nat :=
  match m.find? (fun p => p.1 == k) with
  | some p => p.2
  | none => []

/-- Writing `m[k] = v` in a map of sets. -/
def mapSet (m : List (Nat × List Nat)) (k : Nat) (v : List Nat) : List (Nat × List Nat) :=
  if m.any (fun p => p.1 == k) then m.map (fun p => if p.1 = k then (k, v) else p)
  else m ++ [(k, v)]

/-- The builtin `delete(m, k)` on a map of sets. -/
def mapDelete (m : List (Nat × List Nat)) (k : Nat) : List (Nat × List Nat) :=
  m.filter (fun p => p.1 != k)

/-- One iteration of the first loop of `Validate`, on the pair `(noDep, stillHas)`. -/
def initStep (acc : List Nat × List (Nat × List Nat)) (n : node) :
    List Nat × List (Nat × List Nat) :=
  if n.requires.length = 0 then (setInsert acc.1 n.mapKey, acc.2)
  else (acc.1, mapSet acc.2 n.mapKey (n.requires.foldl setInsert []))

/-- The first loop of `Validate`. -/
def validateInit (all : List node) : List Nat × List (Nat × List Nat) :=
  all.foldl initStep ([], [])

/-- One iteration of the loop over `g.all` inside the main loop of `Validate`:
`n` is the plucked node, `m` the node visited. -/
def releaseStep (n : Nat) (acc : List Nat × List (Nat × List Nat)) (m : node) :
    List Nat × List (Nat × List Nat) :=
  if n ∈ mapGet acc.2 m.mapKey then
    let sh := mapSet acc.2 m.mapKey (setDelete (mapGet acc.2 m.mapKey) n)
    if (mapGet sh m.mapKey).length = 0 then (setInsert acc.1 m.mapKey, mapDelete sh m.mapKey)
    else (acc.1, sh)
  else acc

/-- The main loop of `Validate` on `(topoSorted, noDep, stillHas)`.  The loop is
unbounded in the source; here every iteration consumes one unit of fuel and
`none` is returned when the fuel runs out with `noDep` still non-empty. -/
def validateLoop (all : List node) :
    Nat → (Nat → Nat) → List Nat → List Nat → List (Nat × List Nat) →
      Option (List Nat × List (Nat × List Nat))
  | _, _, ts, [], sh => some (ts, sh)
  | 0, _, _, _ :: _, _ => none
  | fuel + 1, pick, ts, x :: xs, sh =>
    let n := (x :: xs).getD (pick 0 % (x :: xs).length) x
    let st := all.foldl (releaseStep n) (setDelete (x :: xs) n, sh)
    validateLoop all fuel (fun i => pick (i + 1)) (ts ++ [n]) st.1 st.2

/-- The method `Validate`.  `none` stands for a run that does not return; the
second component of a result is the returned error (`none` for nil). -/
def Validate (pick : Nat → Nat) (g : Graph) : Option (Graph × Option Error) :=
  match validateLoop g.all g.all.length pick [] (validateInit g.all).1 (validateInit g.all).2 with
  | none => none
  | some (ts, sh) =>
    if sh.length != 0 then some ({ g with topoSorted := ts }, some .CyclicDependencyErr)
    else some ({ g with topoSorted := ts, validated := true }, none)

/-! ### Test -/

/-- The reporting context: `Run name fn` tells whether the sub-test passed. -/
structure TestingT where
  Run : String → Nat → Bool

/-- One processed node of a `Test` call: its pointer, whether its callable was
invoked (otherwise it was skipped), and the graph at that moment. -/
structure Event where
  key : Nat
  invoked : Bool
  before : Graph
deriving DecidableEq

/-- The package variable `ignoreNilTesting`, which always remains false. -/
def ignoreNilTesting : Bool := false

/-- The loop over `n.requires` in `Test`: propagate failure, panic on a
requirement that is not done. -/
def checkRequires (g : Graph) (n : Nat) : List Nat → Except Error Graph
  | [] => .ok g
  | r :: rest =>
    let g1 := if (g.deref r).failed then g.modify n (fun x => { x with failed := true }) else g
    if !(g1.deref r).done then .error .FunctionNotExecutedErr
    else checkRequires g1 n rest

/-- The loop over `g.topoSorted` in `Test`, collecting the processed nodes.  The
reporting context is non-nil, so the condition `!ignoreNilTesting || t != nil`
reads `!ignoreNilTesting || true`. -/
def testLoop (t : TestingT) : Graph → List Event → List Nat → Except Error (Graph × List Event)
  | g, tr, [] => .ok (g, tr)
  | g, tr, n :: rest =>
    match checkRequires g n (g.deref n).requires with
    | .error e => .error e
    | .ok g1 =>
      if (g1.deref n).failed then
        testLoop t (g1.modify n (fun x => { x with done := true }))
          (tr ++ [{ key := n, invoked := false, before := g1 }]) rest
      else
        let g2 :=
          if !ignoreNilTesting || true then
            g1.modify n (fun x => { x with failed := !t.Run x.name x.fn })
          else g1
        testLoop t (g2.modify n (fun x => { x with done := true }))
          (tr ++ [{ key := n, invoked := true, before := g1 }]) rest

/-- What a `Test` call leaves behind when it returns. -/
structure TestResult where
  g : Graph
  err : Option Error
  trace : List Event
deriving DecidableEq

/-- How a call ends: it returns, it panics, or it does not return. -/
inductive Outcome (α : Type) where
  | ret : α → Outcome α
  | panic : Error → Outcome α
  | diverge : Outcome α
deriving DecidableEq

/-- The part of `Test` after validation. -/
def runTests (t : TestingT) (g : Graph) : Outcome TestResult :=
  match testLoop t g [] g.topoSorted with
  | .error e => .panic e
  | .ok (g1, tr) => .ret { g := g1, err := none, trace := tr }

/-- The method `Test`. -/
def Test (pick : Nat → Nat) (t : TestingT) (g : Graph) : Outcome TestResult :=
  if !g.validated then
    match Validate pick g with
    | none => .diverge
    | some (g1, some e) => .ret { g := g1, err := some e, trace := [] }
    | some (g1, none) => runTests t g1
  else runTests t g

/-! ### Sequences of calls -/

/-- A call of one of the public methods. -/
inductive Op where
  | require (before : Option Nat) (require : List (Option Nat))
  | name (fn : Option Nat) (name : String)
  | nameAll (pairs : List (Option Nat × String))
  | validate (pick : Nat → Nat)
  | test (pick : Nat → Nat) (t : TestingT)

/-- The graph after one call; a call that panicked in `Require`, `Name` or
`NameAll` leaves the graph it reached.  `none` when `Validate` or `Test` does not
return or `Test` panics. -/
def Op.apply (g : Graph) : Op → Option Graph
  | .require b rs => some (Require g b rs).1
  | .name fn s => some (Name g fn s).1
  | .nameAll ps => some (NameAll g ps).1
  | .validate pick => (Validate pick g).map Prod.fst
  | .test pick t =>
    match Test pick t g with
    | .ret r => some r.g
    | _ => none

/-- The graph after a sequence of calls. -/
def runOps (g : Graph) : List Op → Option Graph
  | [] => some g
  | o :: rest =>
    match o.apply g with
    | none => none
    | some g1 => runOps g1 rest

/-- Calls of `Require`, `Name` and `NameAll`. -/
def Op.isBuild : Op → Bool
  | .require _ _ => true
  | .name _ _ => true
  | .nameAll _ => true
  | _ => false

/-- Calls other than `Test`. -/
def Op.notTest : Op → Bool
  | .test _ _ => false
  | _ => true

/-- The relation `a` requires `b`. -/
def requiresRel (g : Graph) (a b : Nat) : Prop :=
  ∃ n ∈ g.all, n.mapKey = a ∧ b ∈ n.requires

/-- The requires relation has a directed cycle. -/
def HasCycle (g : Graph) : Prop :=
  ∃ k, Relation.TransGen (requiresRel g) k k

/-- The keys of a map of sets. -/
def dom (m : List (Nat × List Nat)) : List Nat := m.map Prod.fst

/-- Invariant of the main loop of `Validate` on `(topoSorted, noDep, stillHas)`,
apart from the upper bound on the entries of `stillHas`. -/
structure KBase (all : List node) (ts nd : List Nat) (sh : List (Nat × List Nat)) : Prop where
  ts_nodup : ts.Nodup
  cover : ∀ k, k ∈ all.map node.mapKey ↔ (k ∈ ts ∨ k ∈ nd ∨ k ∈ dom sh)
  ts_nd : ∀ k ∈ ts, k ∉ nd
  ts_sh : ∀ k ∈ ts, k ∉ dom sh
  nd_sh : ∀ k ∈ nd, k ∉ dom sh
  lower : ∀ n ∈ all, ∀ r ∈ n.requires, n.mapKey ∈ dom sh → r ∉ ts → r ∈ mapGet sh n.mapKey
  nonempty : ∀ k ∈ dom sh, mapGet sh k ≠ []
  ready : ∀ n ∈ all, n.mapKey ∈ nd → ∀ r ∈ n.requires, r ∈ ts
  topo : ∀ n ∈ all, n.mapKey ∈ ts → ∀ r ∈ n.requires, ts.indexOf r < ts.indexOf n.mapKey

/-- Every pointer left in an entry of `stillHas` is a requirement not yet sorted. -/
def Upper (all : List node) (ts : List Nat) (sh : List (Nat × List Nat)) : Prop :=
  ∀ m ∈ all, ∀ r ∈ mapGet sh m.mapKey, r ∈ m.requires ∧ r ∉ ts

/-- The upper bound while the inner loop runs: the plucked node `n` may still sit
in the entries of the nodes `rest` not yet visited. -/
def UpperMid (all rest : List node) (n : Nat) (ts : List Nat) (sh : List (Nat × List Nat)) :
    Prop :=
  ∀ m ∈ all, ∀ r ∈ mapGet sh m.mapKey, r ∈ m.requires ∧ (r ∈ ts → r = n ∧ m ∈ rest)

/-- Invariant of the first loop of `Validate` after the nodes `pre` were visited. -/
structure KInit (pre : List node) (nd : List Nat) (sh : List (Nat × List Nat)) : Prop where
  cover : ∀ k, k ∈ pre.map node.mapKey ↔ (k ∈ nd ∨ k ∈ dom sh)
  nd_sh : ∀ k ∈ nd, k ∉ dom sh
  entries : ∀ n ∈ pre, n.mapKey ∈ dom sh → ∀ r, r ∈ mapGet sh n.mapKey ↔ r ∈ n.requires
  nonempty : ∀ k ∈ dom sh, mapGet sh k ≠ []
  ready : ∀ n ∈ pre, n.mapKey ∈ nd → n.requires = []

/-- In the list `ts` every requirement of a listed node stands strictly before it. -/
def TopoOK (g : Graph) (ts : List Nat) : Prop :=
  ∀ a b, requiresRel g a b → a ∈ ts → ts.indexOf b < ts.indexOf a

/-- Well-formedness of the node map: keys are distinct, every requirement
pointer refers to a registered node, and no requirement list repeats a pointer. -/
structure WF (g : Graph) : Prop where
  keys_nodup : g.keys.Nodup
  closed : ∀ n ∈ g.all, ∀ r ∈ n.requires, r ∈ g.keys
  req_nodup : ∀ n ∈ g.all, n.requires.Nodup

/-- A function on nodes that keeps key and requirement list. -/
def KeepsEdges (f : node → node) : Prop :=
  ∀ x, (f x).mapKey = x.mapKey ∧ (f x).requires = x.requires

/-- No node has run: all `done` and `failed` flags are false. -/
def Unrun (g : Graph) : Prop :=
  ∀ n ∈ g.all, n.done = false ∧ n.failed = false

/-- The graph `g2` extends `g1` without touching edges, order or flags: what
`getNode` and `Name` may do. -/
structure Ext (g1 g2 : Graph) : Prop where
  validated : g2.validated = g1.validated
  topoSorted : g2.topoSorted = g1.topoSorted
  edges : ∀ a b, requiresRel g2 a b ↔ requiresRel g1 a b
  wf : WF g1 → WF g2
  unrun : Unrun g1 → Unrun g2
  keys : ∀ k ∈ g1.keys, k ∈ g2.keys

/-- Invariant of graphs built by `Require`, `Name` and `NameAll` alone. -/
structure BuildInv (g : Graph) : Prop where
  wf : WF g
  unrun : Unrun g
  validated : g.validated = false

/-- The diamond: 0 requires 1 and 2, 1 requires 3, 2 requires 3. -/
def diamondOps : List Op :=
  [.require (some 0) [some 1, some 2], .require (some 1) [some 3], .require (some 2) [some 3]]

/-- The graph the calls `diamondOps` build. -/
def diamond : Graph :=
  { all := [{ fn := 0, name := "", mapKey := 0, requires := [1, 2], done := false, failed := false },
            { fn := 1, name := "", mapKey := 1, requires := [3], done := false, failed := false },
            { fn := 2, name := "", mapKey := 2, requires := [3], done := false, failed := false },
            { fn := 3, name := "", mapKey := 3, requires := [], done := false, failed := false }],
    topoSorted := [], validated := false }

/-- The oracle that always plucks the first ready node. -/
def pickFirst : Nat → Nat := fun _ => 0

/-- The diamond after a successful `Validate` under `pickFirst`. -/
def diamondValidated : Graph :=
  { diamond with topoSorted := [3, 1, 2, 0], validated := true }

/-- Two nodes requiring each other. -/
def twoCycleOps : List Op := [.require (some 0) [some 1], .require (some 1) [some 0]]

/-- The graph the calls `twoCycleOps` build. -/
def twoCycle : Graph :=
  { all := [{ fn := 0, name := "", mapKey := 0, requires := [1], done := false, failed := false },
            { fn := 1, name := "", mapKey := 1, requires := [0], done := false, failed := false }],
    topoSorted := [], validated := false }

/-- Declaring the same requirement repeatedly, inside one call and across calls. -/
def repeatOps : List Op :=
  [.require (some 0) [some 1, some 1], .require (some 0) [some 1, some 2, some 1]]

/-- The graph the calls `repeatOps` build. -/
def repeatGraph : Graph :=
  { all := [{ fn := 0, name := "", mapKey := 0, requires := [1, 2], done := false, failed := false },
            { fn := 1, name := "", mapKey := 1, requires := [], done := false, failed := false },
            { fn := 2, name := "", mapKey := 2, requires := [], done := false, failed := false }],
    topoSorted := [], validated := false }

/-- Some requirement of the node `n` has its `failed` flag set. -/
def anyFailed (g : Graph) (n : Nat) : Bool :=
  (g.deref n).requires.any (fun r => (g.deref r).failed)

/-- The graph `g2` differs from `g1` in `done` and `failed` flags only. -/
structure Flagged (g1 g2 : Graph) : Prop where
  topoSorted : g2.topoSorted = g1.topoSorted
  validated : g2.validated = g1.validated
  keys : g2.keys = g1.keys
  wf : WF g1 → WF g2
  edges : ∀ a b, requiresRel g2 a b ↔ requiresRel g1 a b
  static : ∀ k, (g2.deref k).requires = (g1.deref k).requires ∧
    (g2.deref k).name = (g1.deref k).name ∧ (g2.deref k).fn = (g1.deref k).fn

/-- A function on nodes that changes `done` and `failed` only. -/
def FlagOnly (f : node → node) : Prop :=
  ∀ x, (f x).mapKey = x.mapKey ∧ (f x).requires = x.requires ∧ (f x).name = x.name ∧
    (f x).fn = x.fn

/-- What processing the node `n` in the loop of `Test` does to the graph `g`,
giving the graph `gn` and the recorded event `ev`. -/
structure StepRel (t : TestingT) (g : Graph) (n : Nat) (gn : Graph) (ev : Event) : Prop where
  flagged : Flagged g gn
  key : ev.key = n
  invoked : ev.invoked = !((g.deref n).failed || anyFailed g n)
  snap : ∀ r ∈ (g.deref n).requires, (ev.before.deref r).done = true
  other : ∀ k, k ≠ n → gn.deref k = g.deref k
  done : (gn.deref n).done = true
  failed : (gn.deref n).failed =
    ((g.deref n).failed || anyFailed g n || !t.Run (g.deref n).name (g.deref n).fn)

/-- The outcome the reporting context gives for the callable of node `p`:
true when `t.Run(p.name, p.fn)` reports a pass. -/
def passes (t : TestingT) (g : Graph) (p : Nat) : Bool :=
  t.Run (g.deref p).name (g.deref p).fn

/-- Invariant of the loop of `Test` started on the graph `g1`, after the nodes
`pre` were processed, reaching the graph `gc` and the recorded events `tr`. -/
structure TInv (t : TestingT) (g1 : Graph) (pre : List Nat) (gc : Graph) (tr : List Event) :
    Prop where
  flagged : Flagged g1 gc
  done : ∀ k ∈ pre, (gc.deref k).done = true
  keys : tr.map Event.key = pre
  snap : ∀ e ∈ tr, ∀ r ∈ (g1.deref e.key).requires, (e.before.deref r).done = true
  untouched : ∀ k, k ∉ pre → gc.deref k = g1.deref k
  failedMono : ∀ k, (g1.deref k).failed = true → (gc.deref k).failed = true
  invokedClean : ∀ e ∈ tr, e.invoked = true → (g1.deref e.key).failed = false
  failedIff : Unrun g1 → ∀ k ∈ pre, ((gc.deref k).failed = true ↔
    ∃ p, Relation.ReflTransGen (requiresRel g1) k p ∧ passes t g1 p = false)
  invokedIff : Unrun g1 → ∀ e ∈ tr, (e.invoked = true ↔
    ∀ p, Relation.TransGen (requiresRel g1) e.key p → passes t g1 p = true)

/-- Invariant of every graph reachable by the public methods: the node map is
well formed and, when the graph is marked validated, the cached order is a
duplicate-free list of registered nodes in which requirements come first. -/
structure GInv (g : Graph) : Prop where
  wf : WF g
  order : g.validated = true → ¬ HasCycle g ∧ g.topoSorted.Nodup ∧
    (∀ k ∈ g.topoSorted, k ∈ g.keys) ∧ TopoOK g g.topoSorted

/-- The callable of node `k` was invoked in the recorded events. -/
def Invoked (tr : List Event) (k : Nat) : Prop :=
  ∃ e ∈ tr, e.key = k ∧ e.invoked = true

/-- A reporting context in which every sub-test passes. -/
def passAll : TestingT := { Run := fun _ _ => true }

/-- A reporting context in which every sub-test fails. -/
def failAll : TestingT := { Run := fun _ _ => false }

/-- A reporting context in which exactly the callable 3 fails. -/
def failThree : TestingT := { Run := fun _ fn => fn != 3 }

/-- A node is named after the graph was validated. -/
def staleOps : List Op :=
  [.require (some 0) [some 1], .validate pickFirst, .name (some 2) "c"]

/-- The graph the calls `staleOps` leave. -/
def staleGraph : Graph :=
  { all := [{ fn := 0, name := "", mapKey := 0, requires := [1], done := false, failed := false },
            { fn := 1, name := "", mapKey := 1, requires := [], done := false, failed := false },
            { fn := 2, name := "c", mapKey := 2, requires := [], done := false, failed := false }],
    topoSorted := [1, 0], validated := true }

/-- Calls of all five methods. -/
def mixedOps : List Op :=
  [.require (some 0) [some 1], .test pickFirst failAll, .name (some 2) "c", .validate pickFirst]

/-- The graph the calls `mixedOps` leave. -/
def mixedGraph : Graph :=
  { all := [{ fn := 0, name := "", mapKey := 0, requires := [1], done := true, failed := true },
            { fn := 1, name := "", mapKey := 1, requires := [], done := true, failed := true },
            { fn := 2, name := "c", mapKey := 2, requires := [], done := false, failed := false }],
    topoSorted := [1, 2, 0], validated := true }

/-- The graph `g2` is `g1` with freshly allocated nodes appended: what resolving
functions to nodes may do. -/
structure Grown (g1 g2 : Graph) : Prop where
  validated : g2.validated = g1.validated
  topoSorted : g2.topoSorted = g1.topoSorted
  all : ∃ extra, g2.all = g1.all ++ extra ∧ ∀ n ∈ extra, n = node.fresh n.mapKey
  deref : ∀ k, g2.deref k = g1.deref k
  keys : ∀ k ∈ g1.keys, k ∈ g2.keys

/-- A graph with one edge: 0 requires 1. -/
def nilGraph : Graph :=
  { all := [{ fn := 0, name := "", mapKey := 0, requires := [1], done := false, failed := false },
            { fn := 1, name := "", mapKey := 1, requires := [], done := false, failed := false }],
    topoSorted := [], validated := false }

/-- The pointers a `Require` call appends, following the words of the
specification: in argument order, each `rs[i]` that is not in the previous list
`old` and does not occur among `rs[0], ..., rs[i-1]`. -/
def specAdded (old rs : List Nat) : List Nat :=
  (rs.enum.filter (fun p => decide (p.2 ∉ old) && decide (p.2 ∉ rs.take p.1))).map Prod.snd

/-- A node is named and then required by another node. -/
def nameOps : List Op := [.require (some 0) [some 1], .name (some 2) "two"]

/-- The graph the calls `nameOps` build. -/
def nameGraph : Graph :=
  { all := [{ fn := 0, name := "", mapKey := 0, requires := [1], done := false, failed := false },
            { fn := 1, name := "", mapKey := 1, requires := [], done := false, failed := false },
            { fn := 2, name := "two", mapKey := 2, requires := [], done := false,
              failed := false }],
    topoSorted := [], validated := false }

/-- One call `Require(0, 1)`. -/
def edgeOps : List Op := [.require (some 0) [some 1]]

/-- The graph of two nodes requiring each other after a failed `Validate`. -/
def twoCycleStuck : Graph := { twoCycle with topoSorted := [] }

/-! ## Properties -/

/-! ### Sets and maps of sets as lists -/

theorem mem_setInsert {s : List Nat} {k x : Nat} : x ∈ setInsert s k ↔ x ∈ s ∨ x = k := by
  unfold setInsert
  split
  · constructor
    · intro h; exact Or.inl h
    · rintro (h | h)
      · exact h
      · subst h; assumption
  · simp

theorem nodup_setInsert {s : List Nat} (k : Nat) (h : s.Nodup) : (setInsert s k).Nodup := by
  unfold setInsert
  split
  · exact h
  · rename_i hk
    rw [List.nodup_append]
    refine ⟨h, List.nodup_singleton k, ?_⟩
    intro a ha hb
    simp at hb
    subst hb
    exact hk ha

theorem length_setInsert_le (s : List Nat) (k : Nat) : (setInsert s k).length ≤ s.length + 1 := by
  unfold setInsert
  split <;> simp

theorem mem_setDelete {s : List Nat} {k x : Nat} : x ∈ setDelete s k ↔ x ∈ s ∧ x ≠ k := by
  simp [setDelete]

theorem nodup_setDelete {s : List Nat} (k : Nat) (h : s.Nodup) : (setDelete s k).Nodup :=
  h.filter _

theorem length_setDelete_lt {s : List Nat} {k : Nat} (h : k ∈ s) :
    (setDelete s k).length < s.length := by
  unfold setDelete
  induction s with
  | nil => simp at h
  | cons a t ih =>
    by_cases hak : a = k
    · subst hak
      simp [List.filter_cons]
      exact Nat.lt_succ_of_le (List.length_filter_le _ _)
    · have hk : k ∈ t := by
        rcases List.mem_cons.mp h with h | h
        · exact absurd h.symm hak
        · exact h
      have := ih hk
      simp [List.filter_cons, hak]
      exact this


theorem mapGet_nil (k : Nat) : mapGet [] k = [] := rfl

theorem mapGet_cons (p : Nat × List Nat) (m : List (Nat × List Nat)) (k : Nat) :
    mapGet (p :: m) k = if p.1 = k then p.2 else mapGet m k := by
  unfold mapGet
  by_cases h : p.1 = k
  · simp [List.find?_cons, h]
  · simp [List.find?_cons, h]

theorem mapGet_of_not_mem {m : List (Nat × List Nat)} {k : Nat} (h : k ∉ dom m) :
    mapGet m k = [] := by
  induction m with
  | nil => rfl
  | cons p t ih =>
    simp [dom] at h
    rw [mapGet_cons]
    have h1 : ¬ p.1 = k := fun e => h.1 e.symm
    simp [h1]
    apply ih
    simp [dom]
    exact h.2

theorem mem_dom_of_mem_mapGet {m : List (Nat × List Nat)} {k r : Nat} (h : r ∈ mapGet m k) :
    k ∈ dom m := by
  by_contra hk
  rw [mapGet_of_not_mem hk] at h
  simp at h

theorem any_key_iff {m : List (Nat × List Nat)} {k : Nat} :
    (m.any (fun p => p.1 == k)) = true ↔ k ∈ dom m := by
  simp [dom, List.any_eq_true]

theorem dom_map_replace (m : List (Nat × List Nat)) (k : Nat) (v : List Nat) :
    dom (m.map (fun p => if p.1 = k then (k, v) else p)) = dom m := by
  induction m with
  | nil => rfl
  | cons p t ih =>
    simp only [dom, List.map_cons] at ih ⊢
    rw [ih]
    by_cases h : p.1 = k
    · simp [h]
    · simp [h]

theorem dom_mapSet_of_mem {m : List (Nat × List Nat)} {k : Nat} (v : List Nat) (h : k ∈ dom m) :
    dom (mapSet m k v) = dom m := by
  unfold mapSet
  rw [if_pos (any_key_iff.mpr h)]
  exact dom_map_replace m k v

theorem dom_mapSet_of_not_mem {m : List (Nat × List Nat)} {k : Nat} (v : List Nat)
    (h : k ∉ dom m) : dom (mapSet m k v) = dom m ++ [k] := by
  unfold mapSet
  rw [if_neg (fun e => h (any_key_iff.mp e))]
  simp [dom]

theorem length_mapSet_of_mem {m : List (Nat × List Nat)} {k : Nat} (v : List Nat)
    (h : k ∈ dom m) : (mapSet m k v).length = m.length := by
  unfold mapSet
  rw [if_pos (any_key_iff.mpr h)]
  simp

theorem length_mapSet_le (m : List (Nat × List Nat)) (k : Nat) (v : List Nat) :
    (mapSet m k v).length ≤ m.length + 1 := by
  unfold mapSet
  split <;> simp

theorem mapGet_map_replace_same {m : List (Nat × List Nat)} {k : Nat} (v : List Nat)
    (h : k ∈ dom m) : mapGet (m.map (fun p => if p.1 = k then (k, v) else p)) k = v := by
  induction m with
  | nil => simp [dom] at h
  | cons p t ih =>
    rw [List.map_cons, mapGet_cons]
    by_cases hp : p.1 = k
    · simp [hp]
    · simp only [hp, if_false]
      apply ih
      simp [dom] at h
      rcases h with h | h
      · exact absurd h.symm hp
      · simpa [dom] using h

theorem mapGet_append_singleton (m : List (Nat × List Nat)) (k k2 : Nat) (v : List Nat) :
    mapGet (m ++ [(k, v)]) k2 = if k2 ∈ dom m then mapGet m k2 else if k = k2 then v else [] := by
  induction m with
  | nil =>
    simp [dom, mapGet_cons, mapGet_nil]
  | cons p t ih =>
    rw [List.cons_append, mapGet_cons, mapGet_cons, ih]
    by_cases hp : p.1 = k2
    · simp [hp, dom]
    · have : (k2 ∈ dom (p :: t)) ↔ k2 ∈ dom t := by
        simp [dom]
        intro e; exact absurd e.symm hp
      simp [hp, this]

theorem mapGet_mapSet_same (m : List (Nat × List Nat)) (k : Nat) (v : List Nat) :
    mapGet (mapSet m k v) k = v := by
  unfold mapSet
  by_cases h : k ∈ dom m
  · rw [if_pos (any_key_iff.mpr h)]
    exact mapGet_map_replace_same v h
  · rw [if_neg (fun e => h (any_key_iff.mp e)), mapGet_append_singleton]
    simp [h]

theorem mapGet_map_replace_ne (m : List (Nat × List Nat)) {k k2 : Nat} (v : List Nat)
    (h : k2 ≠ k) : mapGet (m.map (fun p => if p.1 = k then (k, v) else p)) k2 = mapGet m k2 := by
  induction m with
  | nil => rfl
  | cons p t ih =>
    rw [List.map_cons, mapGet_cons, mapGet_cons, ih]
    by_cases hp : p.1 = k
    · have h1 : ¬ k = k2 := fun e => h e.symm
      have h2 : ¬ p.1 = k2 := fun e => h (e.symm.trans hp)
      simp [hp, h1]
    · simp [hp]

theorem mapGet_mapSet_ne (m : List (Nat × List Nat)) {k k2 : Nat} (v : List Nat) (h : k2 ≠ k) :
    mapGet (mapSet m k v) k2 = mapGet m k2 := by
  unfold mapSet
  split
  · exact mapGet_map_replace_ne m v h
  · rw [mapGet_append_singleton]
    have h1 : ¬ k = k2 := fun e => h e.symm
    by_cases hd : k2 ∈ dom m
    · simp [hd]
    · simp [hd, h1, mapGet_of_not_mem hd]

theorem dom_mapDelete (m : List (Nat × List Nat)) (k : Nat) :
    dom (mapDelete m k) = (dom m).filter (fun x => x != k) := by
  induction m with
  | nil => rfl
  | cons p t ih =>
    simp only [dom, mapDelete] at ih ⊢
    by_cases hp : p.1 = k
    · simp [List.filter_cons, hp, ih]
    · simp [List.filter_cons, hp, ih]

theorem mem_dom_mapDelete {m : List (Nat × List Nat)} {k x : Nat} :
    x ∈ dom (mapDelete m k) ↔ x ∈ dom m ∧ x ≠ k := by
  rw [dom_mapDelete]; simp

theorem mapGet_mapDelete_ne (m : List (Nat × List Nat)) {k k2 : Nat} (h : k2 ≠ k) :
    mapGet (mapDelete m k) k2 = mapGet m k2 := by
  induction m with
  | nil => rfl
  | cons p t ih =>
    simp only [mapDelete] at ih ⊢
    by_cases hp : p.1 = k
    · have h2 : ¬ k = k2 := fun e => h e.symm
      simp [List.filter_cons, hp, ih, mapGet_cons, h2]
    · simp [List.filter_cons, hp, ih, mapGet_cons]

theorem length_mapDelete_lt {m : List (Nat × List Nat)} {k : Nat} (h : k ∈ dom m) :
    (mapDelete m k).length < m.length := by
  unfold mapDelete
  induction m with
  | nil => simp [dom] at h
  | cons p t ih =>
    by_cases hp : p.1 = k
    · simp [List.filter_cons, hp]
      exact Nat.lt_succ_of_le (List.length_filter_le _ _)
    · have hk : k ∈ dom t := by
        simp [dom] at h
        rcases h with h | h
        · exact absurd h.symm hp
        · simpa [dom] using h
      have := ih hk
      simp [List.filter_cons, hp]
      exact this

theorem releaseStep_inv {all rest : List node} {ts nd : List Nat} {sh : List (Nat × List Nat)}
    {n : Nat} {m0 : node} (hn : n ∈ ts) (hb : KBase all ts nd sh)
    (hu : UpperMid all (m0 :: rest) n ts sh) :
    KBase all ts (releaseStep n (nd, sh) m0).1 (releaseStep n (nd, sh) m0).2 ∧
      UpperMid all rest n ts (releaseStep n (nd, sh) m0).2 := by
  unfold releaseStep
  by_cases h : n ∈ mapGet sh m0.mapKey
  · have hdom : m0.mapKey ∈ dom sh := mem_dom_of_mem_mapGet h
    simp only [if_pos h, mapGet_mapSet_same]
    by_cases he : (setDelete (mapGet sh m0.mapKey) n).length = 0
    · simp only [if_pos he]
      have hd : ∀ x, x ∈ dom (mapDelete (mapSet sh m0.mapKey (setDelete (mapGet sh m0.mapKey) n))
          m0.mapKey) ↔ x ∈ dom sh ∧ x ≠ m0.mapKey := by
        intro x
        rw [mem_dom_mapDelete, dom_mapSet_of_mem _ hdom]
      have hg : ∀ x, x ≠ m0.mapKey →
          mapGet (mapDelete (mapSet sh m0.mapKey (setDelete (mapGet sh m0.mapKey) n))
            m0.mapKey) x = mapGet sh x := by
        intro x hx
        rw [mapGet_mapDelete_ne _ hx, mapGet_mapSet_ne _ _ hx]
      have hg0 : mapGet (mapDelete (mapSet sh m0.mapKey (setDelete (mapGet sh m0.mapKey) n))
            m0.mapKey) m0.mapKey = [] := by
        apply mapGet_of_not_mem
        rw [hd]
        exact fun hx => hx.2 rfl
      refine ⟨⟨hb.ts_nodup, ?_, ?_, ?_, ?_, ?_, ?_, ?_, hb.topo⟩, ?_⟩
      · intro k
        rw [hb.cover k, mem_setInsert, hd]
        by_cases hk : k = m0.mapKey
        · subst hk; tauto
        · tauto
      · intro k hk hk2
        rcases mem_setInsert.mp hk2 with h1 | h1
        · exact hb.ts_nd k hk h1
        · subst h1; exact hb.ts_sh _ hk hdom
      · intro k hk hk2
        exact hb.ts_sh k hk ((hd k).mp hk2).1
      · intro k hk hk2
        rcases mem_setInsert.mp hk with h1 | h1
        · exact hb.nd_sh k h1 ((hd k).mp hk2).1
        · exact ((hd k).mp hk2).2 h1
      · intro n1 hn1 r hr hk hrt
        have := (hd _).mp hk
        rw [hg _ this.2]
        exact hb.lower n1 hn1 r hr this.1 hrt
      · intro k hk
        have := (hd _).mp hk
        rw [hg _ this.2]
        exact hb.nonempty k this.1
      · intro n1 hn1 hk r hr
        rcases mem_setInsert.mp hk with h1 | h1
        · exact hb.ready n1 hn1 h1 r hr
        · by_contra hrt
          have h2 := hb.lower n1 hn1 r hr (h1 ▸ hdom) hrt
          rw [h1] at h2
          have h3 : r ∈ setDelete (mapGet sh m0.mapKey) n :=
            mem_setDelete.mpr ⟨h2, fun e => hrt (e ▸ hn)⟩
          rw [List.length_eq_zero.mp he] at h3
          simp at h3
      · intro m hm r hr
        by_cases hk : m.mapKey = m0.mapKey
        · rw [hk, hg0] at hr
          simp at hr
        · rw [hg _ hk] at hr
          refine ⟨(hu m hm r hr).1, fun hrt => ⟨((hu m hm r hr).2 hrt).1, ?_⟩⟩
          rcases List.mem_cons.mp ((hu m hm r hr).2 hrt).2 with h1 | h1
          · exact absurd (h1 ▸ rfl) hk
          · exact h1
    · simp only [if_neg he]
      have hd : dom (mapSet sh m0.mapKey (setDelete (mapGet sh m0.mapKey) n)) = dom sh :=
        dom_mapSet_of_mem _ hdom
      have hg : ∀ x, x ≠ m0.mapKey →
          mapGet (mapSet sh m0.mapKey (setDelete (mapGet sh m0.mapKey) n)) x = mapGet sh x :=
        fun x hx => mapGet_mapSet_ne _ _ hx
      refine ⟨⟨hb.ts_nodup, ?_, hb.ts_nd, ?_, ?_, ?_, ?_, hb.ready, hb.topo⟩, ?_⟩
      · intro k; rw [hd]; exact hb.cover k
      · rw [hd]; exact hb.ts_sh
      · rw [hd]; exact hb.nd_sh
      · intro n1 hn1 r hr hk hrt
        rw [hd] at hk
        by_cases hk1 : n1.mapKey = m0.mapKey
        · rw [hk1, mapGet_mapSet_same]
          have h2 := hb.lower n1 hn1 r hr hk hrt
          rw [hk1] at h2
          exact mem_setDelete.mpr ⟨h2, fun e => hrt (e ▸ hn)⟩
        · rw [hg _ hk1]
          exact hb.lower n1 hn1 r hr hk hrt
      · intro k hk
        rw [hd] at hk
        by_cases hk1 : k = m0.mapKey
        · rw [hk1, mapGet_mapSet_same]
          intro e
          exact he (by rw [e]; rfl)
        · rw [hg _ hk1]
          exact hb.nonempty k hk
      · intro m hm r hr
        by_cases hk : m.mapKey = m0.mapKey
        · rw [hk, mapGet_mapSet_same] at hr
          have h1 := mem_setDelete.mp hr
          have h2 := hu m hm r (hk ▸ h1.1)
          exact ⟨h2.1, fun hrt => absurd (h2.2 hrt).1 h1.2⟩
        · rw [hg _ hk] at hr
          refine ⟨(hu m hm r hr).1, fun hrt => ⟨((hu m hm r hr).2 hrt).1, ?_⟩⟩
          rcases List.mem_cons.mp ((hu m hm r hr).2 hrt).2 with h1 | h1
          · exact absurd (h1 ▸ rfl) hk
          · exact h1
  · simp only [if_neg h]
    refine ⟨hb, ?_⟩
    intro m hm r hr
    refine ⟨(hu m hm r hr).1, fun hrt => ⟨((hu m hm r hr).2 hrt).1, ?_⟩⟩
    rcases List.mem_cons.mp ((hu m hm r hr).2 hrt).2 with h1 | h1
    · exfalso
      apply h
      rw [← h1, ← ((hu m hm r hr).2 hrt).1]
      exact hr
    · exact h1

theorem release_fold {all : List node} {ts : List Nat} {n : Nat} (hn : n ∈ ts) :
    ∀ (rest : List node) (nd : List Nat) (sh : List (Nat × List Nat)),
      KBase all ts nd sh → UpperMid all rest n ts sh →
      KBase all ts (rest.foldl (releaseStep n) (nd, sh)).1
          (rest.foldl (releaseStep n) (nd, sh)).2 ∧
        Upper all ts (rest.foldl (releaseStep n) (nd, sh)).2 := by
  intro rest
  induction rest with
  | nil =>
    intro nd sh hb hu
    refine ⟨hb, ?_⟩
    intro m hm r hr
    refine ⟨(hu m hm r hr).1, fun hrt => ?_⟩
    have := ((hu m hm r hr).2 hrt).2
    simp at this
  | cons m0 rest ih =>
    intro nd sh hb hu
    have h := releaseStep_inv hn hb hu
    rw [List.foldl_cons]
    exact ih _ _ h.1 h.2

theorem pluck_inv {all : List node} {ts nd : List Nat} {sh : List (Nat × List Nat)} {n : Nat}
    (hb : KBase all ts nd sh) (hu : Upper all ts sh) (hn : n ∈ nd) :
    KBase all (ts ++ [n]) (setDelete nd n) sh ∧ UpperMid all all n (ts ++ [n]) sh := by
  have hnts : n ∉ ts := fun h => hb.ts_nd n h hn
  refine ⟨⟨?_, ?_, ?_, ?_, ?_, ?_, hb.nonempty, ?_, ?_⟩, ?_⟩
  · rw [List.nodup_append]
    refine ⟨hb.ts_nodup, List.nodup_singleton n, ?_⟩
    intro a ha hb2
    simp at hb2
    subst hb2
    exact hnts ha
  · intro k
    rw [hb.cover k, List.mem_append, mem_setDelete]
    simp only [List.mem_singleton]
    by_cases hk : k = n
    · subst hk; tauto
    · tauto
  · intro k hk hk2
    rw [mem_setDelete] at hk2
    rcases List.mem_append.mp hk with h1 | h1
    · exact hb.ts_nd k h1 hk2.1
    · simp at h1; exact hk2.2 h1
  · intro k hk
    rcases List.mem_append.mp hk with h1 | h1
    · exact hb.ts_sh k h1
    · simp at h1; subst h1; exact hb.nd_sh _ hn
  · intro k hk
    exact hb.nd_sh k (mem_setDelete.mp hk).1
  · intro n1 hn1 r hr hk hrt
    exact hb.lower n1 hn1 r hr hk (fun h => hrt (List.mem_append_left _ h))
  · intro n1 hn1 hk r hr
    exact List.mem_append_left _ (hb.ready n1 hn1 (mem_setDelete.mp hk).1 r hr)
  · intro n1 hn1 hk r hr
    rcases List.mem_append.mp hk with h1 | h1
    · have h2 := hb.topo n1 hn1 h1 r hr
      have h3 : r ∈ ts := by
        apply List.indexOf_lt_length.mp
        exact lt_of_lt_of_le h2 (List.indexOf_le_length)
      rw [List.indexOf_append_of_mem h3, List.indexOf_append_of_mem h1]
      exact h2
    · simp at h1
      have h3 : r ∈ ts := hb.ready n1 hn1 (h1 ▸ hn) r hr
      rw [List.indexOf_append_of_mem h3, h1, List.indexOf_append_of_not_mem hnts]
      simp
      exact List.indexOf_lt_length.mpr h3
  · intro m hm r hr
    refine ⟨(hu m hm r hr).1, fun hrt => ⟨?_, hm⟩⟩
    rcases List.mem_append.mp hrt with h1 | h1
    · exact absurd h1 (hu m hm r hr).2
    · simpa using h1

theorem mem_foldl_setInsert (l : List Nat) : ∀ (acc : List Nat) (r : Nat),
    r ∈ l.foldl setInsert acc ↔ r ∈ acc ∨ r ∈ l := by
  induction l with
  | nil => intro acc r; simp
  | cons a t ih =>
    intro acc r
    rw [List.foldl_cons, ih, mem_setInsert, List.mem_cons]
    tauto

theorem initStep_inv {pre : List node} {nd : List Nat} {sh : List (Nat × List Nat)} {n : node}
    (hn : n.mapKey ∉ pre.map node.mapKey) (hi : KInit pre nd sh) :
    KInit (pre ++ [n]) (initStep (nd, sh) n).1 (initStep (nd, sh) n).2 := by
  have hnd : n.mapKey ∉ nd := fun h => hn ((hi.cover _).mpr (Or.inl h))
  have hsh : n.mapKey ∉ dom sh := fun h => hn ((hi.cover _).mpr (Or.inr h))
  have hne : ∀ n1 ∈ pre, n1.mapKey ≠ n.mapKey := by
    intro n1 h1 e
    exact hn (e ▸ List.mem_map_of_mem _ h1)
  unfold initStep
  by_cases h0 : n.requires.length = 0
  · simp only [if_pos h0]
    refine ⟨?_, ?_, ?_, hi.nonempty, ?_⟩
    · intro k
      rw [List.map_append, List.mem_append, hi.cover k, mem_setInsert]
      simp only [List.map_cons, List.map_nil, List.mem_singleton]
      tauto
    · intro k hk
      rcases mem_setInsert.mp hk with h1 | h1
      · exact hi.nd_sh k h1
      · rw [h1]; exact hsh
    · intro n1 hn1 hk r
      rcases List.mem_append.mp hn1 with h1 | h1
      · exact hi.entries n1 h1 hk r
      · simp at h1; subst h1; exact absurd hk hsh
    · intro n1 hn1 hk
      rcases List.mem_append.mp hn1 with h1 | h1
      · rcases mem_setInsert.mp hk with h2 | h2
        · exact hi.ready n1 h1 h2
        · exact absurd h2 (hne n1 h1)
      · simp at h1; subst h1; exact List.length_eq_zero.mp h0
  · simp only [if_neg h0]
    have hd : dom (mapSet sh n.mapKey (n.requires.foldl setInsert [])) = dom sh ++ [n.mapKey] :=
      dom_mapSet_of_not_mem _ hsh
    refine ⟨?_, ?_, ?_, ?_, ?_⟩
    · intro k
      rw [List.map_append, List.mem_append, hi.cover k, hd, List.mem_append]
      simp only [List.map_cons, List.map_nil, List.mem_singleton]
      tauto
    · intro k hk
      rw [hd, List.mem_append]
      simp only [List.mem_singleton]
      rintro (h1 | h1)
      · exact hi.nd_sh k hk h1
      · exact hnd (h1 ▸ hk)
    · intro n1 hn1 hk r
      rcases List.mem_append.mp hn1 with h1 | h1
      · rw [mapGet_mapSet_ne _ _ (hne n1 h1)]
        rw [hd, List.mem_append] at hk
        simp only [List.mem_singleton] at hk
        rcases hk with h2 | h2
        · exact hi.entries n1 h1 h2 r
        · exact absurd h2 (hne n1 h1)
      · simp at h1; subst h1
        rw [mapGet_mapSet_same, mem_foldl_setInsert]
        simp
    · intro k hk
      rw [hd, List.mem_append] at hk
      simp only [List.mem_singleton] at hk
      by_cases hkn : k = n.mapKey
      · rw [hkn, mapGet_mapSet_same]
        intro e
        cases hreq : n.requires with
        | nil => exact h0 (by rw [hreq]; rfl)
        | cons a t =>
          have : a ∈ n.requires.foldl setInsert [] := by
            rw [mem_foldl_setInsert, hreq]; simp
          rw [e] at this
          simp at this
      · rw [mapGet_mapSet_ne _ _ hkn]
        rcases hk with h2 | h2
        · exact hi.nonempty k h2
        · exact absurd h2 hkn
    · intro n1 hn1 hk
      rcases List.mem_append.mp hn1 with h1 | h1
      · exact hi.ready n1 h1 hk
      · simp at h1; subst h1; exact absurd hk hnd

theorem init_fold : ∀ (rest pre : List node) (nd : List Nat) (sh : List (Nat × List Nat)),
    ((pre ++ rest).map node.mapKey).Nodup → KInit pre nd sh →
    KInit (pre ++ rest) (rest.foldl initStep (nd, sh)).1 (rest.foldl initStep (nd, sh)).2 := by
  intro rest
  induction rest with
  | nil => intro pre nd sh _ hi; simpa using hi
  | cons n rest ih =>
    intro pre nd sh hnd hi
    have hn : n.mapKey ∉ pre.map node.mapKey := by
      rw [List.map_append, List.map_cons, List.nodup_append] at hnd
      intro h
      exact hnd.2.2 h (List.mem_cons_self _ _)
    have h1 := initStep_inv hn hi
    have h2 : pre ++ n :: rest = (pre ++ [n]) ++ rest := by simp
    rw [List.foldl_cons, h2]
    apply ih
    · rw [← h2]; exact hnd
    · exact h1

theorem validateInit_inv {all : List node} (h : (all.map node.mapKey).Nodup) :
    KBase all [] (validateInit all).1 (validateInit all).2 ∧
      Upper all [] (validateInit all).2 := by
  have hi : KInit ([] ++ all) (validateInit all).1 (validateInit all).2 :=
    init_fold all [] [] [] (by simpa using h)
      ⟨by simp [dom], by simp, by simp, by simp [dom], by simp⟩
  simp only [List.nil_append] at hi
  refine ⟨⟨List.nodup_nil, ?_, by simp, by simp, hi.nd_sh, ?_, hi.nonempty, ?_, by simp⟩, ?_⟩
  · intro k; rw [hi.cover k]; simp
  · intro n hn r hr hk _
    exact (hi.entries n hn hk r).mpr hr
  · intro n hn hk r hr
    rw [hi.ready n hn hk] at hr
    simp at hr
  · intro m hm r hr
    exact ⟨(hi.entries m hm (mem_dom_of_mem_mapGet hr) r).mp hr, by simp⟩

theorem getD_mem_cons (x : Nat) (xs : List Nat) (i : Nat) :
    (x :: xs).getD (i % (x :: xs).length) x ∈ x :: xs := by
  have h : i % (x :: xs).length < (x :: xs).length := Nat.mod_lt _ (by simp)
  rw [List.getD_eq_getElem _ _ h]
  exact List.getElem_mem _

theorem validateLoop_inv {all : List node} : ∀ (fuel : Nat) (pick : Nat → Nat)
    (ts nd : List Nat) (sh : List (Nat × List Nat)) (ts2 : List Nat)
    (sh2 : List (Nat × List Nat)),
    KBase all ts nd sh → Upper all ts sh →
    validateLoop all fuel pick ts nd sh = some (ts2, sh2) →
    KBase all ts2 [] sh2 ∧ Upper all ts2 sh2 := by
  intro fuel
  induction fuel with
  | zero =>
    intro pick ts nd sh ts2 sh2 hb hu he
    cases nd with
    | nil =>
      simp [validateLoop] at he
      rw [← he.1, ← he.2]; exact ⟨hb, hu⟩
    | cons x xs => simp [validateLoop] at he
  | succ fuel ih =>
    intro pick ts nd sh ts2 sh2 hb hu he
    cases nd with
    | nil =>
      simp [validateLoop] at he
      rw [← he.1, ← he.2]; exact ⟨hb, hu⟩
    | cons x xs =>
      simp only [validateLoop] at he
      have hmem := getD_mem_cons x xs (pick 0)
      have h1 := pluck_inv hb hu hmem
      have h2 := release_fold (List.mem_append_right ts (List.mem_singleton_self _))
        all _ _ h1.1 h1.2
      exact ih _ _ _ _ _ _ h2.1 h2.2 he

theorem releaseStep_measure (n : Nat) (acc : List Nat × List (Nat × List Nat)) (m : node) :
    (releaseStep n acc m).1.length + (releaseStep n acc m).2.length ≤
      acc.1.length + acc.2.length := by
  unfold releaseStep
  by_cases h : n ∈ mapGet acc.2 m.mapKey
  · have hdom : m.mapKey ∈ dom acc.2 := mem_dom_of_mem_mapGet h
    simp only [if_pos h]
    split
    · have h1 := length_setInsert_le acc.1 m.mapKey
      have h2 : m.mapKey ∈ dom (mapSet acc.2 m.mapKey (setDelete (mapGet acc.2 m.mapKey) n)) := by
        rw [dom_mapSet_of_mem _ hdom]; exact hdom
      have h3 := length_mapDelete_lt h2
      rw [length_mapSet_of_mem _ hdom] at h3
      simp only
      omega
    · simp only
      rw [length_mapSet_of_mem _ hdom]
  · simp only [if_neg h]
    exact le_refl _

theorem release_fold_measure (n : Nat) : ∀ (rest : List node)
    (acc : List Nat × List (Nat × List Nat)),
    (rest.foldl (releaseStep n) acc).1.length + (rest.foldl (releaseStep n) acc).2.length ≤
      acc.1.length + acc.2.length := by
  intro rest
  induction rest with
  | nil => intro acc; exact le_refl _
  | cons m rest ih =>
    intro acc
    rw [List.foldl_cons]
    exact le_trans (ih _) (releaseStep_measure n acc m)

theorem validateLoop_isSome (all : List node) : ∀ (fuel : Nat) (pick : Nat → Nat)
    (ts nd : List Nat) (sh : List (Nat × List Nat)),
    nd.length + sh.length ≤ fuel → (validateLoop all fuel pick ts nd sh).isSome = true := by
  intro fuel
  induction fuel with
  | zero =>
    intro pick ts nd sh h
    cases nd with
    | nil => simp [validateLoop]
    | cons x xs => simp at h
  | succ fuel ih =>
    intro pick ts nd sh h
    cases nd with
    | nil => simp [validateLoop]
    | cons x xs =>
      simp only [validateLoop]
      apply ih
      have h1 := release_fold_measure ((x :: xs).getD (pick 0 % (x :: xs).length) x) all
        (setDelete (x :: xs) ((x :: xs).getD (pick 0 % (x :: xs).length) x), sh)
      have h2 := length_setDelete_lt (getD_mem_cons x xs (pick 0))
      simp only at h1
      omega

theorem initStep_measure (acc : List Nat × List (Nat × List Nat)) (n : node) :
    (initStep acc n).1.length + (initStep acc n).2.length ≤ acc.1.length + acc.2.length + 1 := by
  unfold initStep
  split
  · have := length_setInsert_le acc.1 n.mapKey
    simp only
    omega
  · have := length_mapSet_le acc.2 n.mapKey (n.requires.foldl setInsert [])
    simp only
    omega

theorem init_fold_measure : ∀ (rest : List node) (acc : List Nat × List (Nat × List Nat)),
    (rest.foldl initStep acc).1.length + (rest.foldl initStep acc).2.length ≤
      acc.1.length + acc.2.length + rest.length := by
  intro rest
  induction rest with
  | nil => intro acc; simp
  | cons m rest ih =>
    intro acc
    rw [List.foldl_cons]
    have h1 := ih (initStep acc m)
    have h2 := initStep_measure acc m
    simp only [List.length_cons]
    omega

theorem validateInit_measure (all : List node) :
    (validateInit all).1.length + (validateInit all).2.length ≤ all.length := by
  have := init_fold_measure all ([], [])
  simpa [validateInit] using this

theorem transGen_rank {R : Nat → Nat → Prop} (rank : Nat → Nat) (S : Nat → Prop)
    (hS : ∀ a b, R a b → S a → S b)
    (h : ∀ a b, R a b → S a → rank b < rank a) {a b : Nat} (hab : Relation.TransGen R a b)
    (ha : S a) : S b ∧ rank b < rank a := by
  induction hab with
  | single h1 => exact ⟨hS _ _ h1 ha, h _ _ h1 ha⟩
  | tail _ h2 ih => exact ⟨hS _ _ h2 ih.1, lt_trans (h _ _ h2 ih.1) ih.2⟩

theorem exists_cycle_of_succ (R : Nat → Nat → Prop) (S : List Nat) (hne : S ≠ [])
    (hs : ∀ k ∈ S, ∃ r ∈ S, R k r) : ∃ k, Relation.TransGen R k k := by
  by_contra hno
  push_neg at hno
  let r : {k // k ∈ S} → {k // k ∈ S} → Prop := fun a b => Relation.TransGen R b.1 a.1
  haveI : IsTrans {k // k ∈ S} r := ⟨fun a b c hab hbc => Relation.TransGen.trans hbc hab⟩
  haveI : IsIrrefl {k // k ∈ S} r := ⟨fun a h => hno a.1 h⟩
  have wf : WellFounded r := Finite.wellFounded_of_trans_of_irrefl r
  obtain ⟨k0, hk0⟩ := List.exists_mem_of_ne_nil S hne
  obtain ⟨m, _, hm⟩ := wf.has_min Set.univ ⟨⟨k0, hk0⟩, trivial⟩
  obtain ⟨s, hs1, hR⟩ := hs m.1 m.2
  exact hm ⟨s, hs1⟩ trivial (Relation.TransGen.single hR)

theorem acyclic_of_sorted {g : Graph} {ts : List Nat}
    (hcov : ∀ k, k ∈ g.keys → k ∈ ts) (ht : TopoOK g ts) : ¬ HasCycle g := by
  rintro ⟨k, hk⟩
  have hstart : k ∈ ts := by
    rcases Relation.TransGen.head'_iff.mp hk with ⟨c, hc, _⟩
    obtain ⟨n, hn, e, _⟩ := hc
    exact hcov _ (e ▸ List.mem_map_of_mem _ hn)
  have := transGen_rank (fun x => ts.indexOf x) (fun x => x ∈ ts)
    (fun a b hab ha => List.indexOf_lt_length.mp
      (lt_of_lt_of_le (ht a b hab ha) List.indexOf_le_length))
    (fun a b hab ha => ht a b hab ha) hk hstart
  exact lt_irrefl _ this.2

theorem topoOK_of_kbase {g : Graph} {ts nd : List Nat} {sh : List (Nat × List Nat)}
    (hb : KBase g.all ts nd sh) : TopoOK g ts := by
  rintro a b ⟨n, hn, e, hr⟩ ha
  subst e
  exact hb.topo n hn ha b hr

theorem cycle_of_stuck {g : Graph} {ts : List Nat} {sh : List (Nat × List Nat)}
    (hcl : ∀ n ∈ g.all, ∀ r ∈ n.requires, r ∈ g.keys)
    (hb : KBase g.all ts [] sh) (hu : Upper g.all ts sh) (hne : sh ≠ []) : HasCycle g := by
  apply exists_cycle_of_succ (requiresRel g) (dom sh)
  · intro e
    apply hne
    simpa [dom] using e
  · intro k hk
    have hkeys : k ∈ g.all.map node.mapKey := (hb.cover k).mpr (Or.inr (Or.inr hk))
    obtain ⟨n, hn, e⟩ := List.mem_map.mp hkeys
    subst e
    obtain ⟨r, hr⟩ := List.exists_mem_of_ne_nil _ (hb.nonempty _ hk)
    have h1 := hu n hn r hr
    refine ⟨r, ?_, n, hn, rfl, h1.1⟩
    have h2 := (hb.cover r).mp (hcl n hn r h1.1)
    rcases h2 with h2 | h2 | h2
    · exact absurd h2 h1.2
    · simp at h2
    · exact h2

/-- What `Validate` computes on a graph with distinct keys. -/
theorem Validate_spec (pick : Nat → Nat) (g : Graph) (hk : g.keys.Nodup) :
    ∃ ts sh, KBase g.all ts [] sh ∧ Upper g.all ts sh ∧
      Validate pick g =
        some (if sh.length != 0 then ({ g with topoSorted := ts }, some Error.CyclicDependencyErr)
          else ({ g with topoSorted := ts, validated := true }, none)) := by
  have hsome := validateLoop_isSome g.all g.all.length pick [] (validateInit g.all).1
    (validateInit g.all).2 (validateInit_measure g.all)
  obtain ⟨⟨ts, sh⟩, hr⟩ := Option.isSome_iff_exists.mp hsome
  have hi := validateInit_inv hk
  have hinv := validateLoop_inv _ _ _ _ _ _ _ hi.1 hi.2 hr
  refine ⟨ts, sh, hinv.1, hinv.2, ?_⟩
  unfold Validate
  rw [hr]
  simp only
  split <;> rfl

theorem Validate_isSome (pick : Nat → Nat) (g : Graph) : (Validate pick g).isSome = true := by
  have hsome := validateLoop_isSome g.all g.all.length pick [] (validateInit g.all).1
    (validateInit g.all).2 (validateInit_measure g.all)
  obtain ⟨⟨ts, sh⟩, hr⟩ := Option.isSome_iff_exists.mp hsome
  unfold Validate
  rw [hr]
  simp only
  split <;> rfl

theorem lookup_eq_none_iff {g : Graph} {k : Nat} : g.lookup k = none ↔ k ∉ g.keys := by
  simp [Graph.lookup, Graph.keys, List.find?_eq_none]

theorem lookup_some {g : Graph} {k : Nat} {n : node} (h : g.lookup k = some n) :
    n ∈ g.all ∧ n.mapKey = k := by
  unfold Graph.lookup at h
  have h1 := List.mem_of_find?_eq_some h
  have h2 := List.find?_some h
  exact ⟨h1, by simpa using h2⟩

theorem find_of_mem_nodup : ∀ (l : List node), (l.map node.mapKey).Nodup → ∀ n ∈ l,
    l.find? (fun x => x.mapKey == n.mapKey) = some n := by
  intro l
  induction l with
  | nil => intro _ n hn; simp at hn
  | cons a t ih =>
    intro hnd n hn
    rw [List.map_cons, List.nodup_cons] at hnd
    rcases List.mem_cons.mp hn with h | h
    · subst h; simp
    · have hne : a.mapKey ≠ n.mapKey := by
        intro e
        exact hnd.1 (e ▸ List.mem_map_of_mem _ h)
      have hb : (a.mapKey == n.mapKey) = false := by simpa using hne
      rw [List.find?_cons, hb]
      exact ih hnd.2 n h

theorem lookup_of_mem {g : Graph} (hk : g.keys.Nodup) {n : node} (hn : n ∈ g.all) :
    g.lookup n.mapKey = some n :=
  find_of_mem_nodup g.all hk n hn

theorem deref_of_mem {g : Graph} (hk : g.keys.Nodup) {n : node} (hn : n ∈ g.all) :
    g.deref n.mapKey = n := by
  simp [Graph.deref, lookup_of_mem hk hn]

theorem deref_mem {g : Graph} {k : Nat} (hk : k ∈ g.keys) :
    g.deref k ∈ g.all ∧ (g.deref k).mapKey = k := by
  cases h : g.lookup k with
  | none => exact absurd hk (lookup_eq_none_iff.mp h)
  | some n =>
    simp [Graph.deref, h]
    exact lookup_some h

theorem keys_modify (g : Graph) (p : Nat) {f : node → node}
    (hf : ∀ x, (f x).mapKey = x.mapKey) : (g.modify p f).keys = g.keys := by
  simp only [Graph.keys, Graph.modify, List.map_map]
  apply List.map_congr_left
  intro n _
  simp only [Function.comp]
  split
  · exact hf n
  · rfl

theorem mem_modify {g : Graph} {p : Nat} {f : node → node} {n : node} :
    n ∈ (g.modify p f).all ↔
      ∃ m ∈ g.all, n = if m.mapKey = p then f m else m := by
  simp only [Graph.modify, List.mem_map]
  constructor
  · rintro ⟨m, hm, e⟩; exact ⟨m, hm, e.symm⟩
  · rintro ⟨m, hm, e⟩; exact ⟨m, hm, e.symm⟩

theorem requiresRel_modify (g : Graph) (p : Nat) {f : node → node} (hf : KeepsEdges f)
    (a b : Nat) : requiresRel (g.modify p f) a b ↔ requiresRel g a b := by
  unfold requiresRel
  constructor
  · rintro ⟨n, hn, e, hr⟩
    obtain ⟨m, hm, e2⟩ := mem_modify.mp hn
    refine ⟨m, hm, ?_, ?_⟩
    · rw [← e, e2]; split
      · exact ((hf m).1).symm
      · rfl
    · rw [e2] at hr
      split at hr
      · rw [(hf m).2] at hr; exact hr
      · exact hr
  · rintro ⟨m, hm, e, hr⟩
    refine ⟨if m.mapKey = p then f m else m, mem_modify.mpr ⟨m, hm, rfl⟩, ?_, ?_⟩
    · split
      · rw [(hf m).1]; exact e
      · exact e
    · split
      · rw [(hf m).2]; exact hr
      · exact hr

theorem WF_modify {g : Graph} (p : Nat) {f : node → node} (hf : KeepsEdges f) (h : WF g) :
    WF (g.modify p f) := by
  have hkeys : (g.modify p f).keys = g.keys := keys_modify g p (fun x => (hf x).1)
  refine ⟨hkeys ▸ h.keys_nodup, ?_, ?_⟩
  · intro n hn r hr
    obtain ⟨m, hm, e⟩ := mem_modify.mp hn
    rw [hkeys]
    apply h.closed m hm
    rw [e] at hr
    split at hr
    · rw [(hf m).2] at hr; exact hr
    · exact hr
  · intro n hn
    obtain ⟨m, hm, e⟩ := mem_modify.mp hn
    rw [e]
    split
    · rw [(hf m).2]; exact h.req_nodup m hm
    · exact h.req_nodup m hm

/-- What `getNode` does: a panic only for the nil function, otherwise the node of
the key, appended fresh when the key was absent. -/
theorem getNode_cases (g : Graph) (fn : Option Nat) :
    (fn = none ∧ getNode g fn = .error .NilFuncErr) ∨
    (∃ p, fn = some p ∧ p ∈ g.keys ∧ getNode g fn = .ok (g, p)) ∨
    (∃ p, fn = some p ∧ p ∉ g.keys ∧
      getNode g fn = .ok ({ g with all := g.all ++ [node.fresh p] }, p)) := by
  cases fn with
  | none => left; exact ⟨rfl, rfl⟩
  | some p =>
    right
    cases h : g.lookup p with
    | none =>
      right
      refine ⟨p, rfl, lookup_eq_none_iff.mp h, ?_⟩
      simp [getNode, getKey, blank, h]
    | some n =>
      left
      have := lookup_some h
      refine ⟨p, rfl, ?_, ?_⟩
      · rw [← this.2]; exact List.mem_map_of_mem _ this.1
      · simp [getNode, getKey, h, this.2]

theorem WF_addFresh {g : Graph} {p : Nat} (hp : p ∉ g.keys) (h : WF g) :
    WF { g with all := g.all ++ [node.fresh p] } := by
  refine ⟨?_, ?_, ?_⟩
  · simp only [Graph.keys, List.map_append, List.map_cons, List.map_nil]
    rw [List.nodup_append]
    refine ⟨h.keys_nodup, List.nodup_singleton _, ?_⟩
    intro a ha hb
    simp [node.fresh] at hb
    subst hb
    exact hp ha
  · intro n hn r hr
    simp only [Graph.keys, List.map_append, List.mem_append]
    simp only [List.mem_append, List.mem_singleton] at hn
    rcases hn with h1 | h1
    · exact Or.inl (h.closed n h1 r hr)
    · subst h1; simp [node.fresh] at hr
  · intro n hn
    simp only [List.mem_append, List.mem_singleton] at hn
    rcases hn with h1 | h1
    · exact h.req_nodup n h1
    · subst h1; simp [node.fresh]

theorem requiresRel_addFresh (g : Graph) (p : Nat) (a b : Nat) :
    requiresRel { g with all := g.all ++ [node.fresh p] } a b ↔ requiresRel g a b := by
  unfold requiresRel
  constructor
  · rintro ⟨n, hn, e, hr⟩
    simp only [List.mem_append, List.mem_singleton] at hn
    rcases hn with h1 | h1
    · exact ⟨n, h1, e, hr⟩
    · subst h1; simp [node.fresh] at hr
  · rintro ⟨n, hn, e, hr⟩
    exact ⟨n, List.mem_append_left _ hn, e, hr⟩

/-- A property of graphs kept by allocating a fresh node. -/
theorem getNode_ok {g g1 : Graph} {fn : Option Nat} {p : Nat}
    (h : getNode g fn = .ok (g1, p)) :
    fn = some p ∧ p ∈ g1.keys ∧
      (g1 = g ∨ (p ∉ g.keys ∧ g1 = { g with all := g.all ++ [node.fresh p] })) := by
  rcases getNode_cases g fn with ⟨_, h1⟩ | ⟨q, hq, hk, h1⟩ | ⟨q, hq, hk, h1⟩
  · rw [h1] at h; cases h
  · rw [h1] at h
    injection h with h
    injection h with h2 h3
    subst h2; subst h3
    exact ⟨hq, hk, Or.inl rfl⟩
  · rw [h1] at h
    injection h with h
    injection h with h2 h3
    subst h2; subst h3
    refine ⟨hq, ?_, Or.inr ⟨hk, rfl⟩⟩
    simp [Graph.keys, node.fresh]

theorem getNode_error {g : Graph} {fn : Option Nat} {e : Error}
    (h : getNode g fn = .error e) : e = .NilFuncErr ∧ fn = none := by
  rcases getNode_cases g fn with ⟨h0, h1⟩ | ⟨q, hq, hk, h1⟩ | ⟨q, hq, hk, h1⟩
  · rw [h1] at h; injection h with h; exact ⟨h.symm, h0⟩
  · rw [h1] at h; cases h
  · rw [h1] at h; cases h

theorem Ext_refl (g : Graph) : Ext g g :=
  ⟨rfl, rfl, fun _ _ => Iff.rfl, id, id, fun _ h => h⟩

theorem Ext_trans {g1 g2 g3 : Graph} (h12 : Ext g1 g2) (h23 : Ext g2 g3) : Ext g1 g3 :=
  ⟨h23.validated.trans h12.validated, h23.topoSorted.trans h12.topoSorted,
    fun a b => (h23.edges a b).trans (h12.edges a b), fun h => h23.wf (h12.wf h),
    fun h => h23.unrun (h12.unrun h), fun k h => h23.keys k (h12.keys k h)⟩

theorem Ext_addFresh (g : Graph) {p : Nat} (hp : p ∉ g.keys) :
    Ext g { g with all := g.all ++ [node.fresh p] } := by
  refine ⟨rfl, rfl, requiresRel_addFresh g p, WF_addFresh hp, ?_, ?_⟩
  · intro h n hn
    simp only [List.mem_append, List.mem_singleton] at hn
    rcases hn with h1 | h1
    · exact h n h1
    · subst h1; simp [node.fresh]
  · intro k hk
    simp only [Graph.keys, List.map_append, List.mem_append]
    exact Or.inl hk

theorem Unrun_modify {g : Graph} (p : Nat) {f : node → node}
    (hf : ∀ x, (f x).done = x.done ∧ (f x).failed = x.failed) (h : Unrun g) :
    Unrun (g.modify p f) := by
  intro n hn
  obtain ⟨m, hm, e⟩ := mem_modify.mp hn
  rw [e]
  split
  · rw [(hf m).1, (hf m).2]; exact h m hm
  · exact h m hm

theorem Ext_modify (g : Graph) (p : Nat) {f : node → node} (hf : KeepsEdges f)
    (hf2 : ∀ x, (f x).done = x.done ∧ (f x).failed = x.failed) : Ext g (g.modify p f) :=
  ⟨rfl, rfl, requiresRel_modify g p hf, WF_modify p hf, Unrun_modify p hf2,
    fun _ hk => (keys_modify g p (fun x => (hf x).1)).symm ▸ hk⟩

theorem getNode_ext {g g1 : Graph} {fn : Option Nat} {p : Nat}
    (h : getNode g fn = .ok (g1, p)) : Ext g g1 := by
  rcases (getNode_ok h).2.2 with h1 | ⟨hp, h1⟩
  · rw [h1]; exact Ext_refl g
  · rw [h1]; exact Ext_addFresh g hp

theorem getNodes_spec : ∀ (fns : List (Option Nat)) (g : Graph),
    Ext g (getNodes g fns).1 ∧
      ∀ rs, (getNodes g fns).2 = .ok rs → ∀ r ∈ rs, r ∈ (getNodes g fns).1.keys := by
  intro fns
  induction fns with
  | nil =>
    intro g
    refine ⟨Ext_refl g, ?_⟩
    intro rs h r hr
    simp [getNodes] at h
    subst h
    simp at hr
  | cons fn rest ih =>
    intro g
    cases h : getNode g fn with
    | error e =>
      simp only [getNodes, h]
      refine ⟨Ext_refl g, ?_⟩
      intro rs h2
      cases h2
    | ok v =>
      obtain ⟨g1, r⟩ := v
      have h1 := getNode_ext h
      have h2 := ih g1
      have hr1 : r ∈ g1.keys := (getNode_ok h).2.1
      simp only [getNodes, h]
      cases hh : getNodes g1 rest with
      | mk g2 res =>
        rw [hh] at h2
        cases res with
        | error e =>
          simp only
          refine ⟨Ext_trans h1 h2.1, ?_⟩
          intro rs h3
          cases h3
        | ok rs =>
          simp only
          refine ⟨Ext_trans h1 h2.1, ?_⟩
          intro rs2 h3 x hx
          injection h3 with h3
          subst h3
          rcases List.mem_cons.mp hx with h4 | h4
          · rw [h4]; exact h2.1.keys r hr1
          · exact h2.2 rs rfl x h4

theorem WF_congr {g g2 : Graph} (h : g2.all = g.all) (hw : WF g) : WF g2 := by
  have hk : g2.keys = g.keys := by simp [Graph.keys, h]
  exact ⟨hk ▸ hw.keys_nodup, fun n hn r hr => hk ▸ hw.closed n (h ▸ hn) r hr,
    fun n hn => hw.req_nodup n (h ▸ hn)⟩

theorem addRequires_spec (b : Nat) : ∀ (rns : List Nat) (g : Graph),
    (addRequires g b rns).validated = g.validated ∧
    (addRequires g b rns).topoSorted = g.topoSorted ∧
    (addRequires g b rns).keys = g.keys ∧
    (Unrun g → Unrun (addRequires g b rns)) ∧
    (WF g → (∀ r ∈ rns, r ∈ g.keys) → WF (addRequires g b rns)) := by
  intro rns
  induction rns with
  | nil => intro g; simp [addRequires]
  | cons r rest ih =>
    intro g
    unfold addRequires
    split
    · obtain ⟨h1, h2, h3, h4, h5⟩ := ih g
      refine ⟨h1, h2, h3, h4, fun hw hr => h5 hw (fun x hx => hr x (List.mem_cons_of_mem _ hx))⟩
    · rename_i hnot
      obtain ⟨h1, h2, h3, h4, h5⟩ :=
        ih (g.modify b (fun x => { x with requires := x.requires ++ [r] }))
      have hkeys : (g.modify b (fun x => { x with requires := x.requires ++ [r] })).keys
          = g.keys := keys_modify g b (fun _ => rfl)
      refine ⟨h1, h2, h3.trans hkeys, fun hu => h4 (Unrun_modify b (fun _ => ⟨rfl, rfl⟩) hu), ?_⟩
      intro hw hr
      apply h5
      · refine ⟨hkeys ▸ hw.keys_nodup, ?_, ?_⟩
        · intro n hn x hx
          rw [hkeys]
          obtain ⟨m, hm, e⟩ := mem_modify.mp hn
          rw [e] at hx
          split at hx
          · simp only [List.mem_append, List.mem_singleton] at hx
            rcases hx with h6 | h6
            · exact hw.closed m hm x h6
            · rw [h6]; exact hr r (List.mem_cons_self _ _)
          · exact hw.closed m hm x hx
        · intro n hn
          obtain ⟨m, hm, e⟩ := mem_modify.mp hn
          rw [e]
          split
          · rename_i hmb
            simp only
            rw [List.nodup_append]
            refine ⟨hw.req_nodup m hm, List.nodup_singleton _, ?_⟩
            intro a ha hb2
            simp at hb2
            subst hb2
            apply hnot
            rw [← hmb, deref_of_mem hw.keys_nodup hm]
            exact ha
          · exact hw.req_nodup m hm
      · intro x hx
        rw [hkeys]
        exact hr x (List.mem_cons_of_mem _ hx)

/-- What `Require` keeps: it leaves the graph unvalidated and well formed, and
sets no flag. -/
theorem Require_spec (g : Graph) (before : Option Nat) (require : List (Option Nat)) :
    (Require g before require).1.validated = false ∧
      (WF g → WF (Require g before require).1) ∧
      (Unrun g → Unrun (Require g before require).1) := by
  have hw0 : WF g → WF { g with validated := false } :=
    fun hw => ⟨hw.keys_nodup, hw.closed, hw.req_nodup⟩
  have hu0 : Unrun g → Unrun { g with validated := false } := fun hu => hu
  unfold Require
  simp only
  cases h : getNode { g with validated := false } before with
  | error e => exact ⟨rfl, hw0, hu0⟩
  | ok v =>
    obtain ⟨g1, b⟩ := v
    have h1 := getNode_ext h
    have h2 := getNodes_spec require g1
    simp only
    cases hh : getNodes g1 require with
    | mk g2 res =>
      rw [hh] at h2
      have h12 := Ext_trans h1 h2.1
      cases res with
      | error e =>
        exact ⟨h12.validated, fun hw => h12.wf (hw0 hw), fun hu => h12.unrun (hu0 hu)⟩
      | ok rns =>
        simp only
        obtain ⟨a1, _, _, a4, a5⟩ := addRequires_spec b rns g2
        exact ⟨a1.trans h12.validated, fun hw => a5 (h12.wf (hw0 hw)) (h2.2 rns rfl),
          fun hu => a4 (h12.unrun (hu0 hu))⟩

theorem Require_buildInv (g : Graph) (before : Option Nat) (require : List (Option Nat))
    (hw : WF g) (hu : Unrun g) : BuildInv (Require g before require).1 :=
  ⟨(Require_spec g before require).2.1 hw, (Require_spec g before require).2.2 hu,
    (Require_spec g before require).1⟩

theorem Name_ext (g : Graph) (fn : Option Nat) (s : String) : Ext g (Name g fn s).1 := by
  unfold Name
  cases h : getNode g fn with
  | error e => exact Ext_refl g
  | ok v =>
    obtain ⟨g1, p⟩ := v
    exact Ext_trans (getNode_ext h)
      (Ext_modify g1 p (fun _ => ⟨rfl, rfl⟩) (fun _ => ⟨rfl, rfl⟩))

theorem NameAll_ext : ∀ (ps : List (Option Nat × String)) (g : Graph),
    Ext g (NameAll g ps).1 := by
  intro ps
  induction ps with
  | nil => intro g; exact Ext_refl g
  | cons pr rest ih =>
    intro g
    have h1 := Name_ext g pr.1 pr.2
    unfold NameAll
    cases hh : Name g pr.1 pr.2 with
    | mk g1 res =>
      rw [hh] at h1
      cases res with
      | some e => exact h1
      | none => exact Ext_trans h1 (ih g1)

theorem BuildInv_ext {g g2 : Graph} (h : Ext g g2) (hb : BuildInv g) : BuildInv g2 :=
  ⟨h.wf hb.wf, h.unrun hb.unrun, h.validated.trans hb.validated⟩

theorem BuildInv_New : BuildInv New :=
  ⟨⟨by simp [New, Graph.keys], by simp [New], by simp [New]⟩, by simp [Unrun, New], rfl⟩

theorem runOps_buildInv : ∀ (ops : List Op) (g0 g : Graph), BuildInv g0 →
    ops.all Op.isBuild = true → runOps g0 ops = some g → BuildInv g := by
  intro ops
  induction ops with
  | nil =>
    intro g0 g hb _ hr
    simp [runOps] at hr
    exact hr ▸ hb
  | cons o rest ih =>
    intro g0 g hb hall hr
    rw [List.all_cons, Bool.and_eq_true] at hall
    cases o with
    | require b rs =>
      simp only [runOps, Op.apply] at hr
      exact ih _ g (Require_buildInv g0 b rs hb.wf hb.unrun) hall.2 hr
    | name fn s =>
      simp only [runOps, Op.apply] at hr
      exact ih _ g (BuildInv_ext (Name_ext g0 fn s) hb) hall.2 hr
    | nameAll ps =>
      simp only [runOps, Op.apply] at hr
      exact ih _ g (BuildInv_ext (NameAll_ext ps g0) hb) hall.2 hr
    | validate pick => simp [Op.isBuild] at hall
    | test pick t => simp [Op.isBuild] at hall

theorem requiresRel_iff_deref {g : Graph} (hk : g.keys.Nodup) {a : Nat} (ha : a ∈ g.keys)
    (b : Nat) : requiresRel g a b ↔ b ∈ (g.deref a).requires := by
  constructor
  · rintro ⟨n, hn, e, hr⟩
    rw [← e, deref_of_mem hk hn]
    exact hr
  · intro h
    exact ⟨g.deref a, (deref_mem ha).1, (deref_mem ha).2, h⟩

/-- The two ways `Validate` ends on a well-formed graph. -/
theorem Validate_cases (pick : Nat → Nat) (g : Graph) (hw : WF g) :
    (HasCycle g ∧ ∃ ts, Validate pick g =
        some ({ g with topoSorted := ts }, some Error.CyclicDependencyErr)) ∨
    (¬ HasCycle g ∧ ∃ ts, Validate pick g =
        some ({ g with topoSorted := ts, validated := true }, none) ∧
        ts.Nodup ∧ (∀ k, k ∈ ts ↔ k ∈ g.keys) ∧ TopoOK g ts) := by
  obtain ⟨ts, sh, hb, hu, hv⟩ := Validate_spec pick g hw.keys_nodup
  cases sh with
  | nil =>
    right
    have hcov : ∀ k, k ∈ ts ↔ k ∈ g.keys := by
      intro k
      have := hb.cover k
      simp only [dom, List.map_nil, List.not_mem_nil, or_false] at this
      exact this.symm
    have ht := topoOK_of_kbase hb
    refine ⟨acyclic_of_sorted (fun k hk => (hcov k).mpr hk) ht, ts, ?_, hb.ts_nodup, hcov, ht⟩
    simpa using hv
  | cons x xs =>
    left
    refine ⟨cycle_of_stuck hw.closed hb hu (by simp), ts, ?_⟩
    simpa using hv

theorem Validate_nil {pick : Nat → Nat} {g g2 : Graph} (hw : WF g)
    (hv : Validate pick g = some (g2, none)) :
    ¬ HasCycle g ∧ g2 = { g with topoSorted := g2.topoSorted, validated := true } ∧
      g2.topoSorted.Nodup ∧ (∀ k, k ∈ g2.topoSorted ↔ k ∈ g.keys) ∧
      TopoOK g g2.topoSorted := by
  rcases Validate_cases pick g hw with ⟨_, ts, h⟩ | ⟨hc, ts, h, h1, h2, h3⟩
  · rw [h] at hv; simp at hv
  · rw [h] at hv
    simp only [Option.some.injEq, Prod.mk.injEq, and_true] at hv
    subst hv
    exact ⟨hc, rfl, h1, h2, h3⟩


/-- C1: for a graph built from `New` by `Require`, `Name` and `NameAll` calls and
any choice of plucked nodes, if `Validate` returns nil then in `topoSorted` every
requirement of a node occurs and has a strictly smaller index than the node. -/
theorem Validate_topological (ops : List Op) (g g2 : Graph) (pick : Nat → Nat)
    (hops : ops.all Op.isBuild = true) (hrun : runOps New ops = some g)
    (hv : Validate pick g = some (g2, none)) :
    ∀ n ∈ g2.all, ∀ p ∈ n.requires,
      p ∈ g2.topoSorted ∧ n.mapKey ∈ g2.topoSorted ∧
        g2.topoSorted.indexOf p < g2.topoSorted.indexOf n.mapKey := by
  have hb := runOps_buildInv ops New g BuildInv_New hops hrun
  obtain ⟨_, he, _, hcov, ht⟩ := Validate_nil hb.wf hv
  have hall : g2.all = g.all := by rw [he]
  intro n hn p hp
  rw [hall] at hn
  have hnk : n.mapKey ∈ g2.topoSorted := (hcov _).mpr (List.mem_map_of_mem _ hn)
  have hlt := ht n.mapKey p ⟨n, hn, rfl, hp⟩ hnk
  exact ⟨List.indexOf_lt_length.mp (lt_of_lt_of_le hlt List.indexOf_le_length), hnk, hlt⟩

theorem Validate_topological_witness :
    diamondOps.all Op.isBuild = true ∧ runOps New diamondOps = some diamond ∧
    Validate pickFirst diamond = some (diamondValidated, none) ∧
    ∀ n ∈ diamondValidated.all, ∀ p ∈ n.requires,
      p ∈ diamondValidated.topoSorted ∧ n.mapKey ∈ diamondValidated.topoSorted ∧
        diamondValidated.topoSorted.indexOf p < diamondValidated.topoSorted.indexOf n.mapKey :=
  ⟨rfl, rfl, rfl,
    Validate_topological diamondOps diamond diamondValidated pickFirst rfl rfl rfl⟩

/-- C2: on a graph built from `New` by `Require`, `Name` and `NameAll` calls,
`Validate` returns, whichever ready nodes are plucked; it returns
`CyclicDependencyErr` when the requires relation has a directed cycle and nil
when it has none. -/
theorem Validate_cycle_detection (ops : List Op) (g : Graph) (pick : Nat → Nat)
    (hops : ops.all Op.isBuild = true) (hrun : runOps New ops = some g) :
    ∃ g2 e, Validate pick g = some (g2, e) ∧
      (HasCycle g → e = some Error.CyclicDependencyErr) ∧ (¬ HasCycle g → e = none) := by
  have hb := runOps_buildInv ops New g BuildInv_New hops hrun
  rcases Validate_cases pick g hb.wf with ⟨hc, ts, h⟩ | ⟨hc, ts, h, _⟩
  · exact ⟨_, _, h, fun _ => rfl, fun hn => absurd hc hn⟩
  · exact ⟨_, _, h, fun hy => absurd hy hc, fun _ => rfl⟩

theorem Validate_cycle_detection_witness :
    twoCycleOps.all Op.isBuild = true ∧ runOps New twoCycleOps = some twoCycle ∧
    ∃ g2 e, Validate pickFirst twoCycle = some (g2, e) ∧
      (HasCycle twoCycle → e = some Error.CyclicDependencyErr) ∧
      (¬ HasCycle twoCycle → e = none) :=
  ⟨rfl, rfl, Validate_cycle_detection twoCycleOps twoCycle pickFirst rfl rfl⟩

/-- C3: on a graph built from `New` by `Require`, `Name` and `NameAll` calls, if
`Validate` returns nil then `topoSorted` is a permutation of the keys of the node
map, without repetition, and the node map is as before. -/
theorem Validate_permutation (ops : List Op) (g g2 : Graph) (pick : Nat → Nat)
    (hops : ops.all Op.isBuild = true) (hrun : runOps New ops = some g)
    (hv : Validate pick g = some (g2, none)) :
    g2.all = g.all ∧ g2.topoSorted.Nodup ∧ g2.topoSorted.Perm g2.keys := by
  have hb := runOps_buildInv ops New g BuildInv_New hops hrun
  obtain ⟨_, he, hnd, hcov, _⟩ := Validate_nil hb.wf hv
  have hall : g2.all = g.all := by rw [he]
  have hkeys : g2.keys = g.keys := by simp [Graph.keys, hall]
  refine ⟨hall, hnd, ?_⟩
  rw [hkeys]
  exact (List.perm_ext_iff_of_nodup hnd hb.wf.keys_nodup).mpr hcov

theorem Validate_permutation_witness :
    diamondOps.all Op.isBuild = true ∧ runOps New diamondOps = some diamond ∧
    Validate pickFirst diamond = some (diamondValidated, none) ∧
    diamondValidated.all = diamond.all ∧ diamondValidated.topoSorted.Nodup ∧
      diamondValidated.topoSorted.Perm diamondValidated.keys :=
  ⟨rfl, rfl, rfl,
    Validate_permutation diamondOps diamond diamondValidated pickFirst rfl rfl rfl⟩

/-- C10: in a graph built from `New` by `Require`, `Name` and `NameAll` calls no
requirement list contains the same node twice. -/
theorem requires_nodup (ops : List Op) (g : Graph)
    (hops : ops.all Op.isBuild = true) (hrun : runOps New ops = some g) :
    ∀ n ∈ g.all, n.requires.Nodup :=
  (runOps_buildInv ops New g BuildInv_New hops hrun).wf.req_nodup

theorem requires_nodup_witness :
    repeatOps.all Op.isBuild = true ∧ runOps New repeatOps = some repeatGraph ∧
    ∀ n ∈ repeatGraph.all, n.requires.Nodup :=
  ⟨rfl, rfl, requires_nodup repeatOps repeatGraph rfl rfl⟩

theorem find_map_key (l : List node) (F : node → node) (hF : ∀ x, (F x).mapKey = x.mapKey)
    (k : Nat) :
    (l.map F).find? (fun n => n.mapKey == k) = (l.find? (fun n => n.mapKey == k)).map F := by
  induction l with
  | nil => rfl
  | cons a t ih =>
    rw [List.map_cons, List.find?_cons, List.find?_cons, hF a]
    cases h : (a.mapKey == k) with
    | true => rfl
    | false => exact ih

theorem lookup_modify (g : Graph) (p : Nat) {f : node → node}
    (hf : ∀ x, (f x).mapKey = x.mapKey) (k : Nat) :
    (g.modify p f).lookup k = (g.lookup k).map (fun n => if n.mapKey = p then f n else n) := by
  unfold Graph.lookup Graph.modify
  apply find_map_key
  intro x
  split
  · exact hf x
  · rfl

theorem deref_modify_ne (g : Graph) {p k : Nat} {f : node → node}
    (hf : ∀ x, (f x).mapKey = x.mapKey) (h : k ≠ p) : (g.modify p f).deref k = g.deref k := by
  unfold Graph.deref
  rw [lookup_modify g p hf k]
  cases hl : g.lookup k with
  | none => rfl
  | some m =>
    have := (lookup_some hl).2
    simp [this, h]

theorem deref_modify_same (g : Graph) {p : Nat} {f : node → node}
    (hf : ∀ x, (f x).mapKey = x.mapKey) (h : p ∈ g.keys) :
    (g.modify p f).deref p = f (g.deref p) := by
  unfold Graph.deref
  rw [lookup_modify g p hf p]
  cases hl : g.lookup p with
  | none => exact absurd h (lookup_eq_none_iff.mp hl)
  | some m =>
    have := (lookup_some hl).2
    simp [this]

theorem deref_modify_field {α : Type} (proj : node → α) (g : Graph) (p k : Nat)
    {f : node → node} (hf : ∀ x, (f x).mapKey = x.mapKey) (hp : ∀ x, proj (f x) = proj x) :
    proj ((g.modify p f).deref k) = proj (g.deref k) := by
  unfold Graph.deref
  rw [lookup_modify g p hf k]
  cases hl : g.lookup k with
  | none => rfl
  | some m =>
    simp only [Option.map_some', Option.getD_some]
    split
    · exact hp m
    · rfl

theorem modify_idem (g : Graph) (p : Nat) {f : node → node}
    (hf : ∀ x, (f x).mapKey = x.mapKey) (hff : ∀ x, f (f x) = f x) :
    (g.modify p f).modify p f = g.modify p f := by
  unfold Graph.modify
  simp only [List.map_map]
  congr 1
  apply List.map_congr_left
  intro x _
  simp only [Function.comp]
  by_cases h : x.mapKey = p
  · simp [h, hf, hff]
  · simp [h]

theorem Flagged_refl (g : Graph) : Flagged g g :=
  ⟨rfl, rfl, rfl, id, fun _ _ => Iff.rfl, fun _ => ⟨rfl, rfl, rfl⟩⟩

theorem Flagged_trans {g1 g2 g3 : Graph} (h12 : Flagged g1 g2) (h23 : Flagged g2 g3) :
    Flagged g1 g3 :=
  ⟨h23.topoSorted.trans h12.topoSorted, h23.validated.trans h12.validated,
    h23.keys.trans h12.keys, fun h => h23.wf (h12.wf h),
    fun a b => (h23.edges a b).trans (h12.edges a b),
    fun k => ⟨(h23.static k).1.trans (h12.static k).1,
      (h23.static k).2.1.trans (h12.static k).2.1,
      (h23.static k).2.2.trans (h12.static k).2.2⟩⟩

theorem Flagged_modify (g : Graph) (p : Nat) {f : node → node} (hf : FlagOnly f) :
    Flagged g (g.modify p f) :=
  ⟨rfl, rfl, keys_modify g p (fun x => (hf x).1),
    WF_modify p (fun x => ⟨(hf x).1, (hf x).2.1⟩),
    requiresRel_modify g p (fun x => ⟨(hf x).1, (hf x).2.1⟩),
    fun k => ⟨deref_modify_field node.requires g p k (fun x => (hf x).1) (fun x => (hf x).2.1),
      deref_modify_field node.name g p k (fun x => (hf x).1) (fun x => (hf x).2.2.1),
      deref_modify_field node.fn g p k (fun x => (hf x).1) (fun x => (hf x).2.2.2)⟩⟩

theorem done_modify_failed (g : Graph) (n k : Nat) (b : node → Bool) :
    ((g.modify n (fun x => { x with failed := b x })).deref k).done = (g.deref k).done :=
  deref_modify_field node.done g n k (fun _ => rfl) (fun _ => rfl)

theorem failed_modify_done (g : Graph) (n k : Nat) :
    ((g.modify n (fun x => { x with done := true })).deref k).failed = (g.deref k).failed :=
  deref_modify_field node.failed g n k (fun _ => rfl) (fun _ => rfl)

theorem modify_failed_idem (g : Graph) (n : Nat) (b : Bool) :
    (g.modify n (fun x => { x with failed := b })).modify n (fun x => { x with failed := b }) =
      g.modify n (fun x => { x with failed := b }) :=
  modify_idem g n (fun _ => rfl) (fun _ => rfl)

theorem keys_modify_failed (g : Graph) (n : Nat) (b : node → Bool) :
    (g.modify n (fun x => { x with failed := b x })).keys = g.keys :=
  keys_modify g n (fun _ => rfl)

theorem keys_modify_done (g : Graph) (n : Nat) :
    (g.modify n (fun x => { x with done := true })).keys = g.keys :=
  keys_modify g n (fun _ => rfl)

theorem deref_modify_failed_ne (g : Graph) (n : Nat) (b : node → Bool) {k : Nat} (h : k ≠ n) :
    (g.modify n (fun x => { x with failed := b x })).deref k = g.deref k :=
  deref_modify_ne g (fun _ => rfl) h

theorem deref_modify_done_ne (g : Graph) (n : Nat) {k : Nat} (h : k ≠ n) :
    (g.modify n (fun x => { x with done := true })).deref k = g.deref k :=
  deref_modify_ne g (fun _ => rfl) h

theorem deref_modify_failed_same (g : Graph) {n : Nat} (b : node → Bool) (h : n ∈ g.keys) :
    (g.modify n (fun x => { x with failed := b x })).deref n =
      { g.deref n with failed := b (g.deref n) } :=
  deref_modify_same g (fun _ => rfl) h

theorem deref_modify_done_same (g : Graph) {n : Nat} (h : n ∈ g.keys) :
    (g.modify n (fun x => { x with done := true })).deref n = { g.deref n with done := true } :=
  deref_modify_same g (fun _ => rfl) h

theorem checkRequires_ok (n : Nat) : ∀ (rs : List Nat) (g : Graph),
    (∀ r ∈ rs, (g.deref r).done = true) →
    checkRequires g n rs = .ok (if rs.any (fun r => (g.deref r).failed) then
      g.modify n (fun x => { x with failed := true }) else g) := by
  intro rs
  induction rs with
  | nil => intro g _; simp [checkRequires]
  | cons r rest ih =>
    intro g hd
    have hdr : (g.deref r).done = true := hd r (List.mem_cons_self _ _)
    unfold checkRequires
    by_cases hf : (g.deref r).failed = true
    · simp only [hf, if_true]
      have hd1 : ((g.modify n (fun x => { x with failed := true })).deref r).done = true := by
        rw [done_modify_failed g n r (fun _ => true)]; exact hdr
      simp only [hd1, Bool.not_true, Bool.false_eq_true, if_false]
      rw [ih]
      · rw [modify_failed_idem]
        simp [hf]
      · intro x hx
        rw [done_modify_failed g n x (fun _ => true)]
        exact hd x (List.mem_cons_of_mem _ hx)
    · simp only [hf, if_false]
      simp only [hdr, Bool.not_true, Bool.false_eq_true, if_false]
      rw [ih g (fun x hx => hd x (List.mem_cons_of_mem _ hx))]
      simp [hf]

theorem flagOnly_failed (b : node → Bool) :
    FlagOnly (fun x => { x with failed := b x }) :=
  fun _ => ⟨rfl, rfl, rfl, rfl⟩

theorem flagOnly_done : FlagOnly (fun x => { x with done := true }) :=
  fun _ => ⟨rfl, rfl, rfl, rfl⟩

theorem testStep_spec (t : TestingT) (g : Graph) (n : Nat) (hn : n ∈ g.keys)
    (hd : ∀ r ∈ (g.deref n).requires, (g.deref r).done = true) :
    ∃ gn ev, StepRel t g n gn ev ∧
      ∀ tr rest, testLoop t g tr (n :: rest) = testLoop t gn (tr ++ [ev]) rest := by
  have hc := checkRequires_ok n (g.deref n).requires g hd
  by_cases ha : anyFailed g n = true
  · have ha2 : ((g.deref n).requires.any fun r => (g.deref r).failed) = true := ha
    rw [if_pos ha2] at hc
    have hk1 : n ∈ (g.modify n (fun x => { x with failed := true })).keys := by
      rw [keys_modify_failed g n (fun _ => true)]; exact hn
    have hf1 : ((g.modify n (fun x => { x with failed := true })).deref n).failed = true := by
      rw [deref_modify_failed_same g (fun _ => true) hn]
    refine ⟨(g.modify n (fun x => { x with failed := true })).modify n
        (fun x => { x with done := true }),
      { key := n, invoked := false, before := g.modify n (fun x => { x with failed := true }) },
      ⟨?_, rfl, ?_, ?_, ?_, ?_, ?_⟩, ?_⟩
    · exact Flagged_trans (Flagged_modify g n (flagOnly_failed (fun _ => true)))
        (Flagged_modify _ n flagOnly_done)
    · simp [ha]
    · intro r hr
      simp only
      rw [done_modify_failed g n r (fun _ => true)]
      exact hd r hr
    · intro k hk
      rw [deref_modify_done_ne _ n hk, deref_modify_failed_ne g n (fun _ => true) hk]
    · rw [deref_modify_done_same _ hk1]
    · rw [failed_modify_done, hf1]
      simp [ha]
    · intro tr rest
      rw [testLoop, hc]
      simp only [hf1, if_true]
  · have ha2 : ¬ ((g.deref n).requires.any fun r => (g.deref r).failed) = true := ha
    rw [if_neg ha2] at hc
    have ha3 : anyFailed g n = false := by simpa using ha
    by_cases hf0 : (g.deref n).failed = true
    · refine ⟨g.modify n (fun x => { x with done := true }),
        { key := n, invoked := false, before := g }, ⟨?_, rfl, ?_, ?_, ?_, ?_, ?_⟩, ?_⟩
      · exact Flagged_modify _ n flagOnly_done
      · simp [hf0]
      · intro r hr; exact hd r hr
      · intro k hk
        rw [deref_modify_done_ne _ n hk]
      · rw [deref_modify_done_same _ hn]
      · rw [failed_modify_done, hf0]
        simp
      · intro tr rest
        rw [testLoop, hc]
        simp only [hf0, if_true]
    · have hf1 : (g.deref n).failed = false := by simpa using hf0
      have hk1 : n ∈ (g.modify n (fun x => { x with failed := !t.Run x.name x.fn })).keys := by
        rw [keys_modify_failed g n (fun x => !t.Run x.name x.fn)]; exact hn
      refine ⟨(g.modify n (fun x => { x with failed := !t.Run x.name x.fn })).modify n
          (fun x => { x with done := true }),
        { key := n, invoked := true, before := g }, ⟨?_, rfl, ?_, ?_, ?_, ?_, ?_⟩, ?_⟩
      · exact Flagged_trans (Flagged_modify g n (flagOnly_failed (fun x => !t.Run x.name x.fn)))
          (Flagged_modify _ n flagOnly_done)
      · simp [hf1, ha3]
      · intro r hr; exact hd r hr
      · intro k hk
        rw [deref_modify_done_ne _ n hk,
          deref_modify_failed_ne g n (fun x => !t.Run x.name x.fn) hk]
      · rw [deref_modify_done_same _ hk1]
      · rw [failed_modify_done, deref_modify_failed_same g (fun x => !t.Run x.name x.fn) hn]
        simp [hf1, ha3]
      · intro tr rest
        rw [testLoop, hc]
        simp only [hf1, Bool.false_eq_true, if_false, ignoreNilTesting, Bool.not_false,
          Bool.or_true, if_true]

theorem unrun_deref {g : Graph} (h : Unrun g) (k : Nat) :
    (g.deref k).done = false ∧ (g.deref k).failed = false := by
  unfold Graph.deref
  cases hl : g.lookup k with
  | none => simp [node.fresh]
  | some m => simpa using h m (lookup_some hl).1

theorem anyFailed_iff (g : Graph) (n : Nat) :
    anyFailed g n = true ↔ ∃ r ∈ (g.deref n).requires, (g.deref r).failed = true := by
  simp [anyFailed, List.any_eq_true]

theorem mem_pre_of_index {pre post : List Nat} {n r : Nat} (hn : n ∉ pre)
    (h : (pre ++ n :: post).indexOf r < (pre ++ n :: post).indexOf n) : r ∈ pre := by
  by_contra hr
  rw [List.indexOf_append_of_not_mem hr, List.indexOf_append_of_not_mem hn] at h
  simp at h

theorem TInv_start (t : TestingT) (g : Graph) : TInv t g [] g [] :=
  ⟨Flagged_refl g, by simp, rfl, by simp, fun _ _ => rfl, fun _ h => h, by simp, by simp,
    by simp⟩

theorem TInv_step {t : TestingT} {g1 gc gn : Graph} {pre : List Nat} {tr : List Event}
    {n : Nat} {ev : Event} (hw : WF g1) (hn : n ∈ g1.keys) (hnp : n ∉ pre)
    (hreq : ∀ r ∈ (g1.deref n).requires, r ∈ pre)
    (hi : TInv t g1 pre gc tr) (hs : StepRel t gc n gn ev) :
    TInv t g1 (pre ++ [n]) gn (tr ++ [ev]) := by
  have hsame : gc.deref n = g1.deref n := hi.untouched n hnp
  have hne : ∀ k ∈ pre, k ≠ n := fun k hk e => hnp (e ▸ hk)
  refine ⟨Flagged_trans hi.flagged hs.flagged, ?_, ?_, ?_, ?_, ?_, ?_, ?_, ?_⟩
  · intro k hk
    rcases List.mem_append.mp hk with h1 | h1
    · rw [hs.other k (hne k h1)]; exact hi.done k h1
    · simp at h1; subst h1; exact hs.done
  · rw [List.map_append, hi.keys]
    simp [hs.key]
  · intro e he r hr
    rcases List.mem_append.mp he with h1 | h1
    · exact hi.snap e h1 r hr
    · simp at h1; subst h1
      rw [hs.key] at hr
      exact hs.snap r (hsame ▸ hr)
  · intro k hk
    simp only [List.mem_append, List.mem_singleton, not_or] at hk
    rw [hs.other k hk.2]
    exact hi.untouched k hk.1
  · intro k hk
    by_cases hkn : k = n
    · subst hkn
      rw [hs.failed, hsame, hk]
      rfl
    · rw [hs.other k hkn]; exact hi.failedMono k hk
  · intro e he hinv
    rcases List.mem_append.mp he with h1 | h1
    · exact hi.invokedClean e h1 hinv
    · simp at h1; subst h1
      rw [hs.invoked, hsame] at hinv
      rw [hs.key]
      cases hf : (g1.deref n).failed with
      | false => rfl
      | true => simp [hf] at hinv
  · intro hu k hk
    have hfn : (g1.deref n).failed = false := (unrun_deref hu n).2
    have hany : anyFailed gc n = true ↔
        ∃ p, Relation.TransGen (requiresRel g1) n p ∧ passes t g1 p = false := by
      rw [anyFailed_iff, hsame]
      constructor
      · rintro ⟨r, hr, hf⟩
        obtain ⟨p, hp, hpp⟩ := (hi.failedIff hu r (hreq r hr)).mp hf
        exact ⟨p, Relation.TransGen.head'_iff.mpr
          ⟨r, (requiresRel_iff_deref hw.keys_nodup hn r).mpr hr, hp⟩, hpp⟩
      · rintro ⟨p, hp, hpp⟩
        obtain ⟨r, hr, hrp⟩ := Relation.TransGen.head'_iff.mp hp
        have hr2 := (requiresRel_iff_deref hw.keys_nodup hn r).mp hr
        exact ⟨r, hr2, (hi.failedIff hu r (hreq r hr2)).mpr ⟨p, hrp, hpp⟩⟩
    rcases List.mem_append.mp hk with h1 | h1
    · rw [hs.other k (hne k h1)]; exact hi.failedIff hu k h1
    · simp at h1; subst h1
      rw [hs.failed, hsame, hfn]
      simp only [Bool.false_or, Bool.or_eq_true, Bool.not_eq_true']
      constructor
      · rintro (h2 | h2)
        · obtain ⟨p, hp, hpp⟩ := hany.mp h2
          exact ⟨p, hp.to_reflTransGen, hpp⟩
        · exact ⟨k, Relation.ReflTransGen.refl, h2⟩
      · rintro ⟨p, hp, hpp⟩
        rcases Relation.reflTransGen_iff_eq_or_transGen.mp hp with h2 | h2
        · right; rw [h2] at hpp; exact hpp
        · left; exact hany.mpr ⟨p, h2, hpp⟩
  · intro hu e he
    have hfn : (g1.deref n).failed = false := (unrun_deref hu n).2
    rcases List.mem_append.mp he with h1 | h1
    · exact hi.invokedIff hu e h1
    · simp at h1; subst h1
      rw [hs.invoked, hsame, hfn, hs.key]
      simp only [Bool.false_or, Bool.not_eq_true']
      constructor
      · intro h2 p hp
        by_contra hpp
        have hpf : passes t g1 p = false := by simpa using hpp
        have hr : ∃ r ∈ (gc.deref n).requires, (gc.deref r).failed = true := by
          rw [hsame]
          obtain ⟨r, hr, hrp⟩ := Relation.TransGen.head'_iff.mp hp
          have hr2 := (requiresRel_iff_deref hw.keys_nodup hn r).mp hr
          exact ⟨r, hr2, (hi.failedIff hu r (hreq r hr2)).mpr ⟨p, hrp, hpf⟩⟩
        have := (anyFailed_iff gc n).mpr hr
        rw [h2] at this
        exact Bool.false_ne_true this
      · intro h2
        by_contra h3
        have h4 : anyFailed gc n = true := by simpa using h3
        obtain ⟨r, hr, hf⟩ := (anyFailed_iff gc n).mp h4
        rw [hsame] at hr
        obtain ⟨p, hp, hpp⟩ := (hi.failedIff hu r (hreq r hr)).mp hf
        have := h2 p (Relation.TransGen.head'_iff.mpr
          ⟨r, (requiresRel_iff_deref hw.keys_nodup hn r).mpr hr, hp⟩)
        rw [hpp] at this
        exact Bool.false_ne_true this

theorem testLoop_spec (t : TestingT) (g1 : Graph) (hw : WF g1) :
    ∀ (post pre : List Nat) (gc : Graph) (tr : List Event),
      (pre ++ post).Nodup → (∀ k ∈ post, k ∈ g1.keys) → TopoOK g1 (pre ++ post) →
      TInv t g1 pre gc tr →
      ∃ gf trf, testLoop t gc tr post = .ok (gf, trf) ∧ TInv t g1 (pre ++ post) gf trf := by
  intro post
  induction post with
  | nil =>
    intro pre gc tr _ _ _ hi
    exact ⟨gc, tr, rfl, by simpa using hi⟩
  | cons n post ih =>
    intro pre gc tr hnd hkeys ht hi
    have hn : n ∈ g1.keys := hkeys n (List.mem_cons_self _ _)
    have hnp : n ∉ pre := by
      intro h
      exact (List.nodup_append.mp hnd).2.2 h (List.mem_cons_self _ _)
    have hreq : ∀ r ∈ (g1.deref n).requires, r ∈ pre := by
      intro r hr
      have hrel := (requiresRel_iff_deref hw.keys_nodup hn r).mpr hr
      exact mem_pre_of_index hnp (ht n r hrel (by simp))
    have hsame : gc.deref n = g1.deref n := hi.untouched n hnp
    have hd : ∀ r ∈ (gc.deref n).requires, (gc.deref r).done = true := by
      intro r hr
      rw [hsame] at hr
      exact hi.done r (hreq r hr)
    have hnc : n ∈ gc.keys := by rw [hi.flagged.keys]; exact hn
    obtain ⟨gn, ev, hs, hloop⟩ := testStep_spec t gc n hnc hd
    have hstep := TInv_step hw hn hnp hreq hi hs
    have happ : pre ++ n :: post = (pre ++ [n]) ++ post := by simp
    rw [hloop, happ]
    apply ih
    · rw [← happ]; exact hnd
    · intro k hk; exact hkeys k (List.mem_cons_of_mem _ hk)
    · rw [← happ]; exact ht
    · exact hstep

theorem HasCycle_congr {g1 g2 : Graph} (h : ∀ a b, requiresRel g2 a b ↔ requiresRel g1 a b) :
    HasCycle g2 ↔ HasCycle g1 := by
  have : requiresRel g2 = requiresRel g1 := by
    funext a b; exact propext (h a b)
  unfold HasCycle
  rw [this]

theorem TopoOK_congr {g1 g2 : Graph} (h : ∀ a b, requiresRel g2 a b ↔ requiresRel g1 a b)
    (ts : List Nat) : TopoOK g2 ts ↔ TopoOK g1 ts := by
  have : requiresRel g2 = requiresRel g1 := by
    funext a b; exact propext (h a b)
  unfold TopoOK
  rw [this]

theorem GInv_of_buildInv {g : Graph} (h : BuildInv g) : GInv g :=
  ⟨h.wf, fun hv => by rw [h.validated] at hv; exact absurd hv (by decide)⟩

theorem GInv_ext {g g2 : Graph} (h : Ext g g2) (hg : GInv g) : GInv g2 := by
  refine ⟨h.wf hg.wf, ?_⟩
  intro hv
  rw [h.validated] at hv
  obtain ⟨h1, h2, h3, h4⟩ := hg.order hv
  rw [h.topoSorted]
  exact ⟨fun hc => h1 ((HasCycle_congr h.edges).mp hc), h2, fun k hk => h.keys k (h3 k hk),
    (TopoOK_congr h.edges _).mpr h4⟩

theorem GInv_flagged {g g2 : Graph} (h : Flagged g g2) (hg : GInv g) : GInv g2 := by
  refine ⟨h.wf hg.wf, ?_⟩
  intro hv
  rw [h.validated] at hv
  obtain ⟨h1, h2, h3, h4⟩ := hg.order hv
  rw [h.topoSorted, h.keys]
  exact ⟨fun hc => h1 ((HasCycle_congr h.edges).mp hc), h2, h3,
    (TopoOK_congr h.edges _).mpr h4⟩

/-- The result of `Validate` on a reachable graph. -/
theorem Validate_GInv (pick : Nat → Nat) {g : Graph} (hg : GInv g) :
    ∃ g2 e, Validate pick g = some (g2, e) ∧ GInv g2 ∧ g2.all = g.all ∧
      (HasCycle g → e = some Error.CyclicDependencyErr ∧ g2.validated = g.validated) ∧
      (¬ HasCycle g → e = none ∧ g2.validated = true) := by
  rcases Validate_cases pick g hg.wf with ⟨hc, ts, h⟩ | ⟨hc, ts, h, h1, h2, h3⟩
  · refine ⟨_, _, h, ⟨⟨hg.wf.keys_nodup, hg.wf.closed, hg.wf.req_nodup⟩, ?_⟩, rfl,
      fun _ => ⟨rfl, rfl⟩, fun hn => absurd hc hn⟩
    intro hv
    exact absurd hc (hg.order hv).1
  · refine ⟨_, _, h, ⟨⟨hg.wf.keys_nodup, hg.wf.closed, hg.wf.req_nodup⟩, ?_⟩, rfl,
      fun hy => absurd hy hc, fun _ => ⟨rfl, rfl⟩⟩
    intro _
    exact ⟨hc, h1, fun k hk => (h2 k).mp hk, h3⟩

/-- The loop of `Test` on a validated reachable graph returns without a panic. -/
theorem runTests_spec (t : TestingT) {g : Graph} (hg : GInv g) (hv : g.validated = true) :
    ∃ gf trf, runTests t g = .ret { g := gf, err := none, trace := trf } ∧
      TInv t g g.topoSorted gf trf := by
  obtain ⟨_, h2, h3, h4⟩ := hg.order hv
  obtain ⟨gf, trf, hl, hi⟩ := testLoop_spec t g hg.wf g.topoSorted [] g []
    (by simpa using h2) h3 (by simpa using h4) (TInv_start t g)
  refine ⟨gf, trf, ?_, by simpa using hi⟩
  unfold runTests
  rw [hl]

/-- The result of `Test` on a reachable graph. -/
theorem Test_GInv (pick : Nat → Nat) (t : TestingT) {g : Graph} (hg : GInv g) :
    ∃ r, Test pick t g = .ret r ∧ GInv r.g ∧
      (HasCycle g → r.err = some Error.CyclicDependencyErr) ∧ (¬ HasCycle g → r.err = none) := by
  by_cases hv : g.validated = true
  · obtain ⟨gf, trf, hr, hi⟩ := runTests_spec t hg hv
    refine ⟨{ g := gf, err := none, trace := trf }, ?_, GInv_flagged hi.flagged hg,
      fun hc => absurd hc (hg.order hv).1, fun _ => rfl⟩
    unfold Test
    simp only [hv, Bool.not_true, Bool.false_eq_true, if_false]
    exact hr
  · have hv2 : g.validated = false := by simpa using hv
    obtain ⟨g2, e, hval, hg2, _, hcyc, hac⟩ := Validate_GInv pick hg
    by_cases hc : HasCycle g
    · obtain ⟨he, _⟩ := hcyc hc
      subst he
      refine ⟨{ g := g2, err := some Error.CyclicDependencyErr, trace := [] }, ?_, hg2,
        fun _ => rfl, fun hn => absurd hc hn⟩
      unfold Test
      simp only [hv2, Bool.not_false, if_true, hval]
    · obtain ⟨he, hv3⟩ := hac hc
      subst he
      obtain ⟨gf, trf, hr, hi⟩ := runTests_spec t hg2 hv3
      refine ⟨{ g := gf, err := none, trace := trf }, ?_, GInv_flagged hi.flagged hg2,
        fun hy => absurd hy hc, fun _ => rfl⟩
      unfold Test
      simp only [hv2, Bool.not_false, if_true, hval]
      exact hr

theorem GInv_New : GInv New := GInv_of_buildInv BuildInv_New

theorem GInv_apply {g g2 : Graph} (o : Op) (hg : GInv g) (h : o.apply g = some g2) :
    GInv g2 := by
  cases o with
  | require b rs =>
    simp only [Op.apply, Option.some.injEq] at h
    subst h
    refine ⟨(Require_spec g b rs).2.1 hg.wf, ?_⟩
    intro hv
    rw [(Require_spec g b rs).1] at hv
    exact absurd hv (by decide)
  | name fn s =>
    simp only [Op.apply, Option.some.injEq] at h
    subst h
    exact GInv_ext (Name_ext g fn s) hg
  | nameAll ps =>
    simp only [Op.apply, Option.some.injEq] at h
    subst h
    exact GInv_ext (NameAll_ext ps g) hg
  | validate pick =>
    obtain ⟨g3, e, hval, hg3, _⟩ := Validate_GInv pick hg
    simp only [Op.apply, hval, Option.map_some', Option.some.injEq] at h
    subst h
    exact hg3
  | test pick t =>
    obtain ⟨r, hr, hg3, _⟩ := Test_GInv pick t hg
    simp only [Op.apply, hr, Option.some.injEq] at h
    subst h
    exact hg3

theorem runOps_GInv : ∀ (ops : List Op) (g0 g : Graph), GInv g0 →
    runOps g0 ops = some g → GInv g := by
  intro ops
  induction ops with
  | nil =>
    intro g0 g hg hr
    simp [runOps] at hr
    exact hr ▸ hg
  | cons o rest ih =>
    intro g0 g hg hr
    unfold runOps at hr
    cases ho : o.apply g0 with
    | none => rw [ho] at hr; simp at hr
    | some g1 =>
      rw [ho] at hr
      exact ih g1 g (GInv_apply o hg ho) hr

/-- The first `Test` call on an acyclic graph built by `Require`, `Name` and
`NameAll`: it validates, then processes the whole order. -/
theorem Test_first (pick : Nat → Nat) (t : TestingT) {g : Graph} (hb : BuildInv g)
    (hc : ¬ HasCycle g) :
    ∃ ts gf trf, ts.Nodup ∧ (∀ k, k ∈ ts ↔ k ∈ g.keys) ∧ TopoOK g ts ∧
      Test pick t g = .ret { g := gf, err := none, trace := trf } ∧
      TInv t { g with topoSorted := ts, validated := true } ts gf trf := by
  rcases Validate_cases pick g hb.wf with ⟨hy, _⟩ | ⟨_, ts, h, h1, h2, h3⟩
  · exact absurd hy hc
  · have hg2 : GInv { g with topoSorted := ts, validated := true } :=
      ⟨⟨hb.wf.keys_nodup, hb.wf.closed, hb.wf.req_nodup⟩,
        fun _ => ⟨hc, h1, fun k hk => (h2 k).mp hk, h3⟩⟩
    obtain ⟨gf, trf, hr, hi⟩ := runTests_spec t hg2 rfl
    refine ⟨ts, gf, trf, h1, h2, h3, ?_, hi⟩
    unfold Test
    simp only [hb.validated, Bool.not_false, if_true, h]
    exact hr

theorem transGen_target_mem {g : Graph} (hw : WF g) {a b : Nat}
    (h : Relation.TransGen (requiresRel g) a b) : b ∈ g.keys := by
  obtain ⟨c, _, hcb⟩ := Relation.TransGen.tail'_iff.mp h
  obtain ⟨n, hn, _, hr⟩ := hcb
  exact hw.closed n hn b hr

theorem transGen_index {g : Graph} {ts : List Nat} (ht : TopoOK g ts) {a b : Nat}
    (h : Relation.TransGen (requiresRel g) a b) (ha : a ∈ ts) :
    b ∈ ts ∧ ts.indexOf b < ts.indexOf a :=
  transGen_rank (fun x => ts.indexOf x) (fun x => x ∈ ts)
    (fun a b hab ha => List.indexOf_lt_length.mp
      (lt_of_lt_of_le (ht a b hab ha) List.indexOf_le_length))
    (fun a b hab ha => ht a b hab ha) h ha

theorem diamond_acyclic : ¬ HasCycle diamond :=
  (Validate_nil (runOps_buildInv diamondOps New diamond BuildInv_New rfl rfl).wf
    (rfl : Validate pickFirst diamond = some (diamondValidated, none))).1

theorem twoCycle_hasCycle : HasCycle twoCycle := by
  have h01 : requiresRel twoCycle 0 1 :=
    ⟨_, List.mem_cons_self _ _, rfl, List.mem_cons_self _ _⟩
  have h10 : requiresRel twoCycle 1 0 :=
    ⟨_, List.mem_cons_of_mem _ (List.mem_cons_self _ _), rfl, List.mem_cons_self _ _⟩
  exact ⟨0, Relation.TransGen.tail (Relation.TransGen.single h01) h10⟩

/-- In the first `Test` call on an acyclic built graph, a node is invoked exactly
when every transitive prerequisite passes. -/
theorem invoked_iff_all_pass {t : TestingT} {g gf : Graph} {ts : List Nat} {trf : List Event}
    (hu : Unrun g) (hcov : ∀ k, k ∈ ts ↔ k ∈ g.keys)
    (hi : TInv t { g with topoSorted := ts, validated := true } ts gf trf)
    {k : Nat} (hk : k ∈ g.keys) :
    Invoked trf k ↔ ∀ p, Relation.TransGen (requiresRel g) k p → passes t g p = true := by
  constructor
  · rintro ⟨e, he, hek, hinv⟩
    rw [← hek]
    exact (hi.invokedIff hu e he).mp hinv
  · intro h
    have hkts : k ∈ trf.map Event.key := by rw [hi.keys]; exact (hcov k).mpr hk
    obtain ⟨e, he, hek⟩ := List.mem_map.mp hkts
    refine ⟨e, he, hek, (hi.invokedIff hu e he).mpr ?_⟩
    rw [hek]
    exact h

/-- Below a failing transitive prerequisite there is one that was invoked and
reported failure. -/
theorem exists_invoked_failure {t : TestingT} {g gf : Graph} {ts : List Nat}
    {trf : List Event} (hw : WF g) (hu : Unrun g) (hcov : ∀ k, k ∈ ts ↔ k ∈ g.keys)
    (ht : TopoOK g ts)
    (hi : TInv t { g with topoSorted := ts, validated := true } ts gf trf) (n : Nat) :
    ∀ (m p : Nat), ts.indexOf p = m → Relation.TransGen (requiresRel g) n p →
      passes t g p = false →
      ∃ q, Relation.TransGen (requiresRel g) n q ∧ Invoked trf q ∧ passes t g q = false := by
  intro m
  induction m using Nat.strong_induction_on with
  | _ m ih =>
    intro p hm hnp hpf
    have hpk : p ∈ g.keys := transGen_target_mem hw hnp
    by_cases hinv : Invoked trf p
    · exact ⟨p, hnp, hinv, hpf⟩
    · have hno := mt (invoked_iff_all_pass hu hcov hi hpk).mpr hinv
      push_neg at hno
      obtain ⟨p2, hp2, hp2f⟩ := hno
      have hp2f2 : passes t g p2 = false := by simpa using hp2f
      have hidx := transGen_index ht hp2 ((hcov p).mpr hpk)
      exact ih _ (hm ▸ hidx.2) p2 rfl (Relation.TransGen.trans hnp hp2) hp2f2

/-- C4: in the first `Test` call on an acyclic graph built by `Require`, `Name`
and `NameAll`, for every reporting context, the callable of a node is invoked if
and only if every transitive prerequisite passes, equivalently if and only if no
transitive prerequisite was invoked and reported failure; a node with a failing
transitive prerequisite is not invoked and ends with `failed` and `done` set. -/
theorem Test_failure_propagation (ops : List Op) (g : Graph) (pick : Nat → Nat) (t : TestingT)
    (hops : ops.all Op.isBuild = true) (hrun : runOps New ops = some g)
    (hac : ¬ HasCycle g) :
    ∃ r, Test pick t g = .ret r ∧ r.err = none ∧ ∀ n ∈ g.all,
      (Invoked r.trace n.mapKey ↔
        ∀ p, Relation.TransGen (requiresRel g) n.mapKey p → passes t g p = true) ∧
      (Invoked r.trace n.mapKey ↔
        ∀ p, Relation.TransGen (requiresRel g) n.mapKey p →
          ¬ (Invoked r.trace p ∧ passes t g p = false)) ∧
      ((∃ p, Relation.TransGen (requiresRel g) n.mapKey p ∧ passes t g p = false) →
        ¬ Invoked r.trace n.mapKey ∧ (r.g.deref n.mapKey).failed = true ∧
          (r.g.deref n.mapKey).done = true) := by
  have hb := runOps_buildInv ops New g BuildInv_New hops hrun
  obtain ⟨ts, gf, trf, _, hcov, ht, hr, hi⟩ := Test_first pick t hb hac
  refine ⟨_, hr, rfl, ?_⟩
  intro n hn
  have hk : n.mapKey ∈ g.keys := List.mem_map_of_mem _ hn
  have hA := invoked_iff_all_pass hb.unrun hcov hi hk
  refine ⟨hA, ?_, ?_⟩
  · constructor
    · intro h p hp hbad
      have := hA.mp h p hp
      rw [hbad.2] at this
      exact Bool.false_ne_true this
    · intro h
      apply hA.mpr
      intro p hp
      by_contra hpf
      have hpf2 : passes t g p = false := by simpa using hpf
      obtain ⟨q, hq, hqi, hqf⟩ :=
        exists_invoked_failure hb.wf hb.unrun hcov ht hi n.mapKey _ p rfl hp hpf2
      exact h q hq ⟨hqi, hqf⟩
  · rintro ⟨p, hp, hpf⟩
    have hkts : n.mapKey ∈ ts := (hcov _).mpr hk
    refine ⟨?_, ?_, hi.done _ hkts⟩
    · intro h
      have := hA.mp h p hp
      rw [hpf] at this
      exact Bool.false_ne_true this
    · exact (hi.failedIff hb.unrun _ hkts).mpr ⟨p, hp.to_reflTransGen, hpf⟩

theorem Test_failure_propagation_witness :
    diamondOps.all Op.isBuild = true ∧ runOps New diamondOps = some diamond ∧
    ¬ HasCycle diamond ∧
    ∃ r, Test pickFirst failThree diamond = .ret r ∧ r.err = none ∧ ∀ n ∈ diamond.all,
      (Invoked r.trace n.mapKey ↔
        ∀ p, Relation.TransGen (requiresRel diamond) n.mapKey p →
          passes failThree diamond p = true) ∧
      (Invoked r.trace n.mapKey ↔
        ∀ p, Relation.TransGen (requiresRel diamond) n.mapKey p →
          ¬ (Invoked r.trace p ∧ passes failThree diamond p = false)) ∧
      ((∃ p, Relation.TransGen (requiresRel diamond) n.mapKey p ∧
          passes failThree diamond p = false) →
        ¬ Invoked r.trace n.mapKey ∧ (r.g.deref n.mapKey).failed = true ∧
          (r.g.deref n.mapKey).done = true) :=
  ⟨rfl, rfl, diamond_acyclic,
    Test_failure_propagation diamondOps diamond pickFirst failThree rfl rfl diamond_acyclic⟩

/-- C5: in the first `Test` call on an acyclic graph built by `Require`, `Name`
and `NameAll`, when the callable of a node is invoked every node of its
requirement list has its `done` flag set in the graph at that moment and was
processed earlier in the same call. -/
theorem Test_prerequisites_first (ops : List Op) (g : Graph) (pick : Nat → Nat) (t : TestingT)
    (hops : ops.all Op.isBuild = true) (hrun : runOps New ops = some g)
    (hac : ¬ HasCycle g) :
    ∃ r, Test pick t g = .ret r ∧
      ∀ pre e post, r.trace = pre ++ e :: post → e.invoked = true →
        ∀ p ∈ (g.deref e.key).requires,
          (e.before.deref p).done = true ∧ ∃ e2 ∈ pre, e2.key = p := by
  have hb := runOps_buildInv ops New g BuildInv_New hops hrun
  obtain ⟨ts, gf, trf, hnd, hcov, ht, hr, hi⟩ := Test_first pick t hb hac
  refine ⟨_, hr, ?_⟩
  intro pre e post htr _ p hp
  have htr2 : trf = pre ++ e :: post := htr
  have he : e ∈ trf := by rw [htr2]; simp
  refine ⟨hi.snap e he p hp, ?_⟩
  have hts : ts = pre.map Event.key ++ e.key :: post.map Event.key := by
    rw [← hi.keys, htr2]; simp
  have hek : e.key ∈ g.keys := by
    apply (hcov _).mp
    rw [hts]; simp
  have hrel := (requiresRel_iff_deref hb.wf.keys_nodup hek p).mpr hp
  have hidx := ht e.key p hrel (by rw [hts]; simp)
  have hnotin : e.key ∉ pre.map Event.key := by
    rw [hts] at hnd
    intro h
    exact (List.nodup_append.mp hnd).2.2 h (List.mem_cons_self _ _)
  rw [hts] at hidx
  have := mem_pre_of_index hnotin hidx
  obtain ⟨e2, he2, hk2⟩ := List.mem_map.mp this
  exact ⟨e2, he2, hk2⟩

theorem Test_prerequisites_first_witness :
    diamondOps.all Op.isBuild = true ∧ runOps New diamondOps = some diamond ∧
    ¬ HasCycle diamond ∧
    ∃ r, Test pickFirst passAll diamond = .ret r ∧
      ∀ pre e post, r.trace = pre ++ e :: post → e.invoked = true →
        ∀ p ∈ (diamond.deref e.key).requires,
          (e.before.deref p).done = true ∧ ∃ e2 ∈ pre, e2.key = p :=
  ⟨rfl, rfl, diamond_acyclic,
    Test_prerequisites_first diamondOps diamond pickFirst passAll rfl rfl diamond_acyclic⟩

/-- C6: on an acyclic graph built by `Require`, `Name` and `NameAll` in which
every callable passes, one `Test` call invokes the callable of every registered
node exactly once. -/
theorem Test_runs_each_once (ops : List Op) (g : Graph) (pick : Nat → Nat) (t : TestingT)
    (hops : ops.all Op.isBuild = true) (hrun : runOps New ops = some g)
    (hac : ¬ HasCycle g) (hpass : ∀ n ∈ g.all, passes t g n.mapKey = true) :
    ∃ r, Test pick t g = .ret r ∧ r.err = none ∧
      ∀ n ∈ g.all, r.trace.countP (fun e => e.invoked && e.key == n.mapKey) = 1 := by
  have hb := runOps_buildInv ops New g BuildInv_New hops hrun
  obtain ⟨ts, gf, trf, hnd, hcov, _, hr, hi⟩ := Test_first pick t hb hac
  refine ⟨_, hr, rfl, ?_⟩
  intro n hn
  have hall : ∀ e ∈ trf, e.invoked = true := by
    intro e he
    apply (hi.invokedIff hb.unrun e he).mpr
    intro p hp
    have hpk : p ∈ g.keys := transGen_target_mem hb.wf hp
    obtain ⟨m, hm, e2⟩ := List.mem_map.mp hpk
    rw [← e2]
    exact hpass m hm
  have h1 : trf.countP (fun e => e.invoked && e.key == n.mapKey) =
      trf.countP (fun e => e.key == n.mapKey) := by
    apply List.countP_congr
    intro e he
    simp [hall e he]
  have h2 : trf.countP (fun e => e.key == n.mapKey) = (trf.map Event.key).count n.mapKey := by
    rw [List.count, List.countP_map]
    rfl
  show trf.countP (fun e => e.invoked && e.key == n.mapKey) = 1
  rw [h1, h2, hi.keys]
  exact List.count_eq_one_of_mem hnd ((hcov _).mpr (List.mem_map_of_mem _ hn))

theorem Test_runs_each_once_witness :
    diamondOps.all Op.isBuild = true ∧ runOps New diamondOps = some diamond ∧
    ¬ HasCycle diamond ∧ (∀ n ∈ diamond.all, passes passAll diamond n.mapKey = true) ∧
    ∃ r, Test pickFirst passAll diamond = .ret r ∧ r.err = none ∧
      ∀ n ∈ diamond.all, r.trace.countP (fun e => e.invoked && e.key == n.mapKey) = 1 :=
  ⟨rfl, rfl, diamond_acyclic, fun _ _ => rfl,
    Test_runs_each_once diamondOps diamond pickFirst passAll rfl rfl diamond_acyclic
      (fun _ _ => rfl)⟩

/-- C7 fails on the code: after `Require(0, 1)`, `Validate` and `Name(2, "c")` the
graph is still marked validated with the old order, so `Test` returns nil having
processed the nodes 1 and 0 only, and the registered node 2 is left with
`done = false`. -/
theorem Test_misses_node_named_after_validate :
    staleOps.all Op.notTest = true ∧ runOps New staleOps = some staleGraph ∧
    ∃ r, Test pickFirst passAll staleGraph = .ret r ∧ r.err = none ∧
      r.trace.map Event.key = [1, 0] ∧ 2 ∈ r.g.keys ∧ (r.g.deref 2).done = false :=
  ⟨rfl, rfl, _, rfl, rfl, rfl, by decide, rfl⟩

/-- C8: on a graph built by `Require`, `Name` and `NameAll` whose requires
relation has a cycle, `Test` returns `CyclicDependencyErr`, invokes no callable
and leaves every node as it was. -/
theorem Test_cyclic_runs_nothing (ops : List Op) (g : Graph) (pick : Nat → Nat) (t : TestingT)
    (hops : ops.all Op.isBuild = true) (hrun : runOps New ops = some g)
    (hc : HasCycle g) :
    ∃ r, Test pick t g = .ret r ∧ r.err = some Error.CyclicDependencyErr ∧
      r.trace = [] ∧ r.g.all = g.all := by
  have hb := runOps_buildInv ops New g BuildInv_New hops hrun
  rcases Validate_cases pick g hb.wf with ⟨_, ts, h⟩ | ⟨hn, _⟩
  · refine ⟨TestResult.mk { g with topoSorted := ts } (some Error.CyclicDependencyErr) [],
      ?_, rfl, rfl, rfl⟩
    unfold Test
    simp only [hb.validated, Bool.not_false, if_true, h]
  · exact absurd hc hn

theorem Test_cyclic_runs_nothing_witness :
    twoCycleOps.all Op.isBuild = true ∧ runOps New twoCycleOps = some twoCycle ∧
    HasCycle twoCycle ∧
    ∃ r, Test pickFirst passAll twoCycle = .ret r ∧
      r.err = some Error.CyclicDependencyErr ∧ r.trace = [] ∧ r.g.all = twoCycle.all :=
  ⟨rfl, rfl, twoCycle_hasCycle,
    Test_cyclic_runs_nothing twoCycleOps twoCycle pickFirst passAll rfl rfl twoCycle_hasCycle⟩

/-- C9: on every graph reachable from `New` by `Require`, `Name`, `NameAll`,
`Validate` and `Test` calls, for every reporting context, `Test` returns; it
returns `CyclicDependencyErr` when the requires relation has a cycle and nil
otherwise. -/
theorem Test_error_only_on_cycle (ops : List Op) (g : Graph) (pick : Nat → Nat) (t : TestingT)
    (hrun : runOps New ops = some g) :
    ∃ r, Test pick t g = .ret r ∧
      (HasCycle g → r.err = some Error.CyclicDependencyErr) ∧ (¬ HasCycle g → r.err = none) := by
  obtain ⟨r, hr, _, h1, h2⟩ := Test_GInv pick t (runOps_GInv ops New g GInv_New hrun)
  exact ⟨r, hr, h1, h2⟩

theorem Test_error_only_on_cycle_witness :
    runOps New mixedOps = some mixedGraph ∧
    ∃ r, Test pickFirst failAll mixedGraph = .ret r ∧
      (HasCycle mixedGraph → r.err = some Error.CyclicDependencyErr) ∧
      (¬ HasCycle mixedGraph → r.err = none) :=
  ⟨rfl, Test_error_only_on_cycle mixedOps mixedGraph pickFirst failAll rfl⟩

theorem Grown_refl (g : Graph) : Grown g g :=
  ⟨rfl, rfl, ⟨[], by simp, by simp⟩, fun _ => rfl, fun _ h => h⟩

theorem Grown_trans {g1 g2 g3 : Graph} (h12 : Grown g1 g2) (h23 : Grown g2 g3) :
    Grown g1 g3 := by
  obtain ⟨e1, h1, h1f⟩ := h12.all
  obtain ⟨e2, h2, h2f⟩ := h23.all
  refine ⟨h23.validated.trans h12.validated, h23.topoSorted.trans h12.topoSorted,
    ⟨e1 ++ e2, by rw [h2, h1, List.append_assoc], ?_⟩,
    fun k => (h23.deref k).trans (h12.deref k), fun k h => h23.keys k (h12.keys k h)⟩
  intro n hn
  rcases List.mem_append.mp hn with h | h
  · exact h1f n h
  · exact h2f n h

theorem find_append_singleton (l : List node) (x : node) (k : Nat) :
    (l ++ [x]).find? (fun n => n.mapKey == k) =
      (l.find? (fun n => n.mapKey == k)).orElse
        (fun _ => if x.mapKey = k then some x else none) := by
  induction l with
  | nil =>
    by_cases h : x.mapKey = k
    · simp [List.find?_cons, h]
    · simp [List.find?_cons, h]
  | cons a t ih =>
    rw [List.cons_append, List.find?_cons, List.find?_cons]
    cases h : (a.mapKey == k) with
    | true => simp
    | false => simpa using ih

theorem deref_addFresh (g : Graph) {p : Nat} (_hp : p ∉ g.keys) (k : Nat) :
    Graph.deref { g with all := g.all ++ [node.fresh p] } k = g.deref k := by
  unfold Graph.deref Graph.lookup
  rw [find_append_singleton]
  cases hl : g.all.find? (fun n => n.mapKey == k) with
  | some m => simp
  | none =>
    by_cases hk : p = k
    · subst hk
      simp [node.fresh]
    · simp [node.fresh, hk]

theorem Grown_addFresh (g : Graph) {p : Nat} (hp : p ∉ g.keys) :
    Grown g { g with all := g.all ++ [node.fresh p] } := by
  refine ⟨rfl, rfl, ⟨[node.fresh p], rfl, ?_⟩, deref_addFresh g hp, ?_⟩
  · intro n hn
    simp at hn
    subst hn
    rfl
  · intro k hk
    simp only [Graph.keys, List.map_append, List.mem_append]
    exact Or.inl hk

theorem getNode_grown {g g1 : Graph} {fn : Option Nat} {p : Nat}
    (h : getNode g fn = .ok (g1, p)) : Grown g g1 := by
  rcases (getNode_ok h).2.2 with h1 | ⟨hp, h1⟩
  · rw [h1]; exact Grown_refl g
  · rw [h1]; exact Grown_addFresh g hp

/-- The loop resolving the required functions: it only appends fresh nodes; it
panics exactly when some function is nil, and then with `NilFuncErr`; otherwise it
returns the keys of the functions in order. -/
theorem getNodes_grown : ∀ (fns : List (Option Nat)) (g : Graph),
    Grown g (getNodes g fns).1 ∧
      (none ∈ fns → (getNodes g fns).2 = .error .NilFuncErr) ∧
      (∀ e, (getNodes g fns).2 = .error e → e = .NilFuncErr) ∧
      (∀ rs, fns = rs.map some → (getNodes g fns).2 = .ok rs ∧
        ∀ r ∈ rs, r ∈ (getNodes g fns).1.keys) := by
  intro fns
  induction fns with
  | nil =>
    intro g
    refine ⟨Grown_refl g, by simp, ?_, ?_⟩
    · intro e h; simp [getNodes] at h
    · intro rs h
      have : rs = [] := by simpa using h.symm
      subst this
      simp [getNodes]
  | cons fn rest ih =>
    intro g
    cases h : getNode g fn with
    | error e =>
      have he := getNode_error h
      simp only [getNodes, h]
      refine ⟨Grown_refl g, fun _ => by rw [he.1], fun e2 h2 => ?_, ?_⟩
      · injection h2 with h2; rw [← h2]; exact he.1
      · intro rs hrs
        rw [he.2] at hrs
        cases rs with
        | nil => simp at hrs
        | cons a t => simp at hrs
    | ok v =>
      obtain ⟨g1, r⟩ := v
      have h1 := getNode_grown h
      have hok := getNode_ok h
      obtain ⟨i1, i2, i3, i4⟩ := ih g1
      simp only [getNodes, h]
      cases hh : getNodes g1 rest with
      | mk g2 res =>
        rw [hh] at i1 i2 i3 i4
        cases res with
        | error e =>
          simp only
          refine ⟨Grown_trans h1 i1, fun _ => by rw [i3 e rfl], fun e2 h2 => ?_, ?_⟩
          · injection h2 with h2; rw [← h2]; exact i3 e rfl
          · intro rs hrs
            cases rs with
            | nil => simp at hrs
            | cons a t =>
              simp only [List.map_cons, List.cons.injEq] at hrs
              have := (i4 t hrs.2).1
              simp at this
        | ok rs0 =>
          simp only
          refine ⟨Grown_trans h1 i1, ?_, (fun e2 h2 => by cases h2), ?_⟩
          · intro hn
            rcases List.mem_cons.mp hn with h3 | h3
            · rw [hok.1] at h3; cases h3
            · have := i2 h3
              simp at this
          · intro rs hrs
            cases rs with
            | nil => simp at hrs
            | cons a t =>
              simp only [List.map_cons, List.cons.injEq] at hrs
              have h5 := i4 t hrs.2
              have ha : a = r := by
                have := hok.1
                rw [hrs.1] at this
                injection this with this
              have h6 : rs0 = t := by
                have := h5.1
                injection this with this
              subst ha; subst h6
              refine ⟨rfl, ?_⟩
              intro x hx
              rcases List.mem_cons.mp hx with h7 | h7
              · rw [h7]; exact i1.keys _ hok.2.1
              · exact h5.2 x h7

/-- C11: a `Require` call whose subject or one of whose prerequisites is nil
panics with `NilFuncErr`; every node of the graph is afterwards as it was before,
requirement list included, and the only other nodes are freshly allocated ones,
with empty requirement lists; this also when non-nil prerequisites come before
the nil one. -/
theorem Require_nil_keeps_edges (g : Graph) (before : Option Nat) (require : List (Option Nat))
    (hnil : before = none ∨ none ∈ require) :
    (Require g before require).2 = some Error.NilFuncErr ∧
      (∃ extra, (Require g before require).1.all = g.all ++ extra ∧
        ∀ n ∈ extra, n.requires = []) ∧
      ∀ k, ((Require g before require).1.deref k).requires = (g.deref k).requires := by
  unfold Require
  simp only
  cases h : getNode { g with validated := false } before with
  | error e =>
    have he := getNode_error h
    simp only
    exact ⟨by rw [he.1], ⟨[], by simp, by simp⟩, fun _ => rfl⟩
  | ok v =>
    obtain ⟨g1, b⟩ := v
    have h1 := getNode_grown h
    have hreq : none ∈ require := by
      rcases hnil with h2 | h2
      · rw [h2] at h
        have := (getNode_ok h).1
        cases this
      · exact h2
    obtain ⟨i1, i2, _, _⟩ := getNodes_grown require g1
    have herr := i2 hreq
    simp only
    cases hh : getNodes g1 require with
    | mk g2 res =>
      rw [hh] at i1 herr
      simp only at herr
      subst herr
      simp only
      have h12 := Grown_trans h1 i1
      obtain ⟨extra, hall, hfresh⟩ := h12.all
      refine ⟨trivial, ⟨extra, hall, ?_⟩, ?_⟩
      · intro n hn
        rw [hfresh n hn]
        rfl
      · intro k
        rw [h12.deref k]
        rfl

theorem Require_nil_keeps_edges_witness :
    (some 2 = none ∨ none ∈ [some 3, none, some 0]) ∧
    (Require nilGraph (some 2) [some 3, none, some 0]).2 = some Error.NilFuncErr ∧
      (∃ extra, (Require nilGraph (some 2) [some 3, none, some 0]).1.all =
          nilGraph.all ++ extra ∧ ∀ n ∈ extra, n.requires = []) ∧
      ∀ k, ((Require nilGraph (some 2) [some 3, none, some 0]).1.deref k).requires =
        (nilGraph.deref k).requires :=
  ⟨Or.inr (by decide),
    Require_nil_keeps_edges nilGraph (some 2) [some 3, none, some 0] (Or.inr (by decide))⟩

theorem specAdded_append_singleton (old rs : List Nat) (r : Nat) :
    specAdded old (rs ++ [r]) =
      specAdded old rs ++ (if r ∉ old ∧ r ∉ rs then [r] else []) := by
  unfold specAdded
  rw [List.enum_append, List.filter_append, List.map_append, List.enumFrom_singleton]
  congr 1
  · congr 1
    apply List.filter_congr
    intro p hp
    have hlt := List.fst_lt_of_mem_enum hp
    rw [List.take_append_of_le_length (Nat.le_of_lt hlt)]
  · by_cases h : r ∉ old ∧ r ∉ rs
    · rw [if_pos h]
      simp [List.filter_cons, h.1, h.2]
    · rw [if_neg h]
      simp only [List.take_left', List.filter_cons, List.map_nil, List.filter_nil]
      split
      · rename_i hc
        exfalso
        apply h
        simpa using hc
      · rfl

/-- The list the loop `Outer` builds is the previous list followed by the pointers
the specification names. -/
theorem foldl_setInsert_eq (old : List Nat) (rs : List Nat) :
    rs.foldl setInsert old = old ++ specAdded old rs := by
  induction rs using List.reverseRecOn with
  | nil => simp [specAdded]
  | append_singleton rs r ih =>
    rw [List.foldl_append, List.foldl_cons, List.foldl_nil, specAdded_append_singleton]
    have hmem : r ∈ rs.foldl setInsert old ↔ r ∈ old ∨ r ∈ rs := mem_foldl_setInsert rs old r
    by_cases h : r ∈ rs.foldl setInsert old
    · have hs : setInsert (rs.foldl setInsert old) r = rs.foldl setInsert old := by
        simp [setInsert, h]
      rw [hs]
      have h2 : ¬ (r ∉ old ∧ r ∉ rs) := by
        rcases hmem.mp h with h3 | h3
        · exact fun h4 => h4.1 h3
        · exact fun h4 => h4.2 h3
      rw [if_neg h2, ih]
      simp
    · have hs : setInsert (rs.foldl setInsert old) r = rs.foldl setInsert old ++ [r] := by
        simp [setInsert, h]
      rw [hs]
      have h2 : r ∉ old ∧ r ∉ rs :=
        ⟨fun h3 => h (hmem.mpr (Or.inl h3)), fun h3 => h (hmem.mpr (Or.inr h3))⟩
      rw [if_pos h2, ih, List.append_assoc]

theorem keys_modify_requires (g : Graph) (b r : Nat) :
    (g.modify b (fun x => { x with requires := x.requires ++ [r] })).keys = g.keys :=
  keys_modify g b (fun _ => rfl)

theorem deref_modify_requires_ne (g : Graph) (b r : Nat) {k : Nat} (h : k ≠ b) :
    (g.modify b (fun x => { x with requires := x.requires ++ [r] })).deref k = g.deref k :=
  deref_modify_ne g (fun _ => rfl) h

theorem deref_modify_requires_same (g : Graph) {b : Nat} (r : Nat) (h : b ∈ g.keys) :
    (g.modify b (fun x => { x with requires := x.requires ++ [r] })).deref b =
      { g.deref b with requires := (g.deref b).requires ++ [r] } :=
  deref_modify_same g (fun _ => rfl) h

/-- The effect of the loop `Outer` of `Require` on the node `b` and on the others. -/
theorem addRequires_effect (b : Nat) : ∀ (rns : List Nat) (g : Graph), b ∈ g.keys →
    (addRequires g b rns).deref b =
        { g.deref b with requires := rns.foldl setInsert (g.deref b).requires } ∧
      ∀ k, k ≠ b → (addRequires g b rns).deref k = g.deref k := by
  intro rns
  induction rns with
  | nil => intro g _; exact ⟨rfl, fun _ _ => rfl⟩
  | cons r rest ih =>
    intro g hb
    unfold addRequires
    by_cases h : r ∈ (g.deref b).requires
    · rw [if_pos h]
      obtain ⟨h1, h2⟩ := ih g hb
      refine ⟨?_, h2⟩
      rw [h1, List.foldl_cons]
      simp [setInsert, h]
    · rw [if_neg h]
      have hb2 : b ∈ (g.modify b (fun x => { x with requires := x.requires ++ [r] })).keys := by
        rw [keys_modify_requires]; exact hb
      obtain ⟨h1, h2⟩ := ih _ hb2
      refine ⟨?_, ?_⟩
      · rw [h1, deref_modify_requires_same g r hb, List.foldl_cons]
        simp [setInsert, h]
      · intro k hk
        rw [h2 k hk, deref_modify_requires_ne g b r hk]

/-- The effect of a `Require` call whose arguments are all non-nil. -/
theorem Require_effect (g : Graph) (b : Nat) (rs : List Nat) :
    (Require g (some b) (rs.map some)).2 = none ∧
      (Require g (some b) (rs.map some)).1.validated = false ∧
      b ∈ (Require g (some b) (rs.map some)).1.keys ∧
      (∀ r ∈ rs, r ∈ (Require g (some b) (rs.map some)).1.keys) ∧
      (Require g (some b) (rs.map some)).1.deref b =
        { g.deref b with
          requires := (g.deref b).requires ++ specAdded (g.deref b).requires rs } ∧
      ∀ k, k ≠ b → (Require g (some b) (rs.map some)).1.deref k = g.deref k := by
  unfold Require
  simp only
  cases h : getNode { g with validated := false } (some b) with
  | error e =>
    have := (getNode_error h).2
    cases this
  | ok v =>
    obtain ⟨g1, b1⟩ := v
    have hok := getNode_ok h
    have hb1 : b1 = b := by
      have := hok.1
      injection this with this
      exact this.symm
    subst hb1
    have h1 := getNode_grown h
    obtain ⟨i1, _, _, i4⟩ := getNodes_grown (rs.map some) g1
    obtain ⟨i5, i6⟩ := i4 rs rfl
    simp only
    cases hh : getNodes g1 (rs.map some) with
    | mk g2 res =>
      rw [hh] at i1 i5 i6
      simp only at i5 i6
      subst i5
      simp only
      have h12 := Grown_trans h1 i1
      have hb2 : b1 ∈ g2.keys := i1.keys _ hok.2.1
      obtain ⟨a1, a2⟩ := addRequires_effect b1 rs g2 hb2
      obtain ⟨s1, _, s3, _, _⟩ := addRequires_spec b1 rs g2
      have hd : ∀ k, g2.deref k = g.deref k := fun k => (h12.deref k).trans rfl
      refine ⟨trivial, s1.trans h12.validated, ?_, ?_, ?_, ?_⟩
      · rw [s3]; exact hb2
      · intro r hr
        rw [s3]; exact i6 r hr
      · rw [a1, hd b1, foldl_setInsert_eq]
      · intro k hk
        rw [a2 k hk, hd k]

theorem specAdded_example : specAdded [1] [2, 1, 2, 3] = [2, 3] := by decide

theorem deref_of_not_mem {g : Graph} {k : Nat} (h : k ∉ g.keys) : g.deref k = node.fresh k := by
  simp [Graph.deref, lookup_eq_none_iff.mpr h]

theorem keys_modify_name (g : Graph) (p : Nat) (s : String) :
    (g.modify p (fun x => { x with name := s })).keys = g.keys :=
  keys_modify g p (fun _ => rfl)

theorem deref_modify_name_ne (g : Graph) (p : Nat) (s : String) {k : Nat} (h : k ≠ p) :
    (g.modify p (fun x => { x with name := s })).deref k = g.deref k :=
  deref_modify_ne g (fun _ => rfl) h

theorem deref_modify_name_same (g : Graph) {p : Nat} (s : String) (h : p ∈ g.keys) :
    (g.modify p (fun x => { x with name := s })).deref p = { g.deref p with name := s } :=
  deref_modify_same g (fun _ => rfl) h

/-- C18: a `Require` call with all arguments non-nil does not panic; afterwards the
requirement list of the node of `before` is its previous list followed by, in
argument order, each `rs[i]` that was not in the previous list and does not occur
among `rs[0..i-1]`; the requirement list of every other node is unchanged. -/
theorem Require_appends_new (g : Graph) (b : Nat) (rs : List Nat) :
    (Require g (some b) (rs.map some)).2 = none ∧
      ((Require g (some b) (rs.map some)).1.deref b).requires =
        (g.deref b).requires ++ specAdded (g.deref b).requires rs ∧
      ∀ k, k ≠ b →
        ((Require g (some b) (rs.map some)).1.deref k).requires = (g.deref k).requires := by
  obtain ⟨h1, _, _, _, h5, h6⟩ := Require_effect g b rs
  refine ⟨h1, ?_, ?_⟩
  · rw [h5]
  · intro k hk
    rw [h6 k hk]

/-- C13: `Name` with a non-nil function does not panic; it sets the name of the
node of the function, a node that is created fresh when absent, and leaves
`validated`, `topoSorted`, the other fields of that node and every other node as
they were. -/
theorem Name_effect (g : Graph) (p : Nat) (label : String) :
    (Name g (some p) label).2 = none ∧
      (Name g (some p) label).1.validated = g.validated ∧
      (Name g (some p) label).1.topoSorted = g.topoSorted ∧
      (∀ k, k ∈ (Name g (some p) label).1.keys ↔ k ∈ g.keys ∨ k = p) ∧
      (Name g (some p) label).1.deref p = { g.deref p with name := label } ∧
      (p ∉ g.keys →
        (Name g (some p) label).1.deref p = { node.fresh p with name := label }) ∧
      ∀ k, k ≠ p → (Name g (some p) label).1.deref k = g.deref k := by
  rcases getNode_cases g (some p) with ⟨h0, _⟩ | ⟨q, hq, hk, h1⟩ | ⟨q, hq, hk, h1⟩
  · cases h0
  · injection hq with hq
    subst hq
    unfold Name
    rw [h1]
    simp only
    refine ⟨trivial, rfl, rfl, ?_, deref_modify_name_same g label hk,
      fun h => absurd hk h, fun k hkp => deref_modify_name_ne g p label hkp⟩
    intro k
    rw [keys_modify_name]
    constructor
    · exact fun h => Or.inl h
    · rintro (h | h)
      · exact h
      · rw [h]; exact hk
  · injection hq with hq
    subst hq
    unfold Name
    rw [h1]
    simp only
    have hk1 : p ∈ Graph.keys { g with all := g.all ++ [node.fresh p] } := by
      simp [Graph.keys, node.fresh]
    refine ⟨trivial, rfl, rfl, ?_, ?_, ?_, ?_⟩
    · intro k
      rw [keys_modify_name]
      simp only [Graph.keys, List.map_append, List.mem_append, List.map_cons, List.map_nil,
        List.mem_singleton]
      constructor
      · rintro (h | h)
        · exact Or.inl h
        · right; rw [h]; rfl
      · rintro (h | h)
        · exact Or.inl h
        · right; rw [h]; rfl
    · rw [deref_modify_name_same _ label hk1, deref_addFresh g hk]
    · intro _
      rw [deref_modify_name_same _ label hk1, deref_addFresh g hk, deref_of_not_mem hk]
    · intro k hkp
      rw [deref_modify_name_ne _ p label hkp, deref_addFresh g hk]

theorem NameAll_error : ∀ (ps : List (Option Nat × String)) (g : Graph),
    (NameAll g ps).2 = none ∨ (NameAll g ps).2 = some Error.NilFuncErr := by
  intro ps
  induction ps with
  | nil => intro g; left; rfl
  | cons pr rest ih =>
    intro g
    unfold NameAll
    unfold Name
    cases h : getNode g pr.1 with
    | error e =>
      simp only
      right
      rw [(getNode_error h).1]
    | ok v =>
      obtain ⟨g1, p⟩ := v
      simp only
      exact ih _

/-- C17: in every graph, hence after every sequence of public calls, `getNode`
hands a function to `blank` only when its key is absent from the node map, where
`blank` succeeds; so `getNode`, `Require`, `Name` and `NameAll` never panic with
`FunctionAlreadyPresentErr`: their only panic is `NilFuncErr`. -/
theorem FunctionAlreadyPresentErr_unreachable (g : Graph) :
    (∀ fn key, getKey fn = .ok key → key ∈ g.keys → getNode g fn = .ok (g, key)) ∧
      (∀ fn key, getKey fn = .ok key → key ∉ g.keys →
        getNode g fn = blank g fn ∧
          blank g fn = .ok ({ g with all := g.all ++ [node.fresh key] }, key)) ∧
      (∀ fn key, getKey fn = .ok key → key ∈ g.keys →
        blank g fn = .error Error.FunctionAlreadyPresentErr) ∧
      (∀ fn, getNode g fn ≠ .error Error.FunctionAlreadyPresentErr) ∧
      (∀ b rs, (Require g b rs).2 = none ∨ (Require g b rs).2 = some Error.NilFuncErr) ∧
      (∀ fn s, (Name g fn s).2 = none ∨ (Name g fn s).2 = some Error.NilFuncErr) ∧
      (∀ ps, (NameAll g ps).2 = none ∨ (NameAll g ps).2 = some Error.NilFuncErr) := by
  refine ⟨?_, ?_, ?_, ?_, ?_, ?_, fun ps => NameAll_error ps g⟩
  · intro fn key hk hmem
    cases fn with
    | none => simp [getKey] at hk
    | some q =>
      simp only [getKey, Except.ok.injEq] at hk
      subst hk
      rcases getNode_cases g (some q) with ⟨h0, _⟩ | ⟨p, hp, _, h1⟩ | ⟨p, hp, hn, _⟩
      · cases h0
      · injection hp with hp; subst hp; exact h1
      · injection hp with hp; subst hp; exact absurd hmem hn
  · intro fn key hk hmem
    cases fn with
    | none => simp [getKey] at hk
    | some q =>
      simp only [getKey, Except.ok.injEq] at hk
      subst hk
      have hl := lookup_eq_none_iff.mpr hmem
      constructor
      · simp [getNode, getKey, hl]
      · simp [blank, getKey, hl]
  · intro fn key hk hmem
    cases fn with
    | none => simp [getKey] at hk
    | some q =>
      simp only [getKey, Except.ok.injEq] at hk
      subst hk
      cases hl : g.lookup q with
      | none => exact absurd hmem (lookup_eq_none_iff.mp hl)
      | some n => simp [blank, getKey, hl]
  · intro fn h
    have := (getNode_error h).1
    cases this
  · intro b rs
    unfold Require
    simp only
    cases h : getNode { g with validated := false } b with
    | error e =>
      right
      simp only
      rw [(getNode_error h).1]
    | ok v =>
      obtain ⟨g1, b1⟩ := v
      obtain ⟨_, _, i3, _⟩ := getNodes_grown rs g1
      simp only
      cases hh : getNodes g1 rs with
      | mk g2 res =>
        rw [hh] at i3
        cases res with
        | error e =>
          right
          simp only
          rw [i3 e rfl]
        | ok rns => left; rfl
  · intro fn s
    unfold Name
    cases h : getNode g fn with
    | error e =>
      right
      simp only
      rw [(getNode_error h).1]
    | ok v => left; rfl

/-- C12: in a graph built by `Require`, `Name` and `NameAll` the keys are
distinct, the map entry under the key of a node is that node, `getNode` resolves
a registered function to it without changing the graph, and every requirement
pointer refers to a registered node; after `Name(c, s)` and `Require(a, c)` the
pointer to `c` in the requirement list of `a` refers to the node stored under the
key of `c`, whose name is `s`. -/
theorem identity_singleton (ops : List Op) (g : Graph) (c a : Nat) (s : String)
    (hops : ops.all Op.isBuild = true) (hrun : runOps New ops = some g) :
    g.keys.Nodup ∧
      (∀ n ∈ g.all, g.lookup n.mapKey = some n ∧
        getNode g (some n.mapKey) = .ok (g, n.mapKey)) ∧
      (∀ n ∈ g.all, ∀ r ∈ n.requires, ∃ m ∈ g.all, g.lookup r = some m) ∧
      (Require (Name g (some c) s).1 (some a) [some c]).1.keys.Nodup ∧
      c ∈ ((Require (Name g (some c) s).1 (some a) [some c]).1.deref a).requires ∧
      (Require (Name g (some c) s).1 (some a) [some c]).1.lookup c =
        some ((Require (Name g (some c) s).1 (some a) [some c]).1.deref c) ∧
      ((Require (Name g (some c) s).1 (some a) [some c]).1.deref c).mapKey = c ∧
      ((Require (Name g (some c) s).1 (some a) [some c]).1.deref c).name = s := by
  have hb := runOps_buildInv ops New g BuildInv_New hops hrun
  have hw1 : WF (Name g (some c) s).1 := (Name_ext g (some c) s).wf hb.wf
  have hw2 := (Require_spec (Name g (some c) s).1 (some a) [some c]).2.1 hw1
  obtain ⟨_, _, _, _, n5, _, _⟩ := Name_effect g c s
  obtain ⟨_, _, _, r4, r5, r6⟩ := Require_effect (Name g (some c) s).1 a [c]
  have hlist : [c].map some = [some c] := rfl
  rw [hlist] at r4 r5 r6
  have hck := r4 c (List.mem_singleton_self c)
  have hdm := deref_mem hck
  refine ⟨hb.wf.keys_nodup, ?_, ?_, hw2.keys_nodup, ?_, ?_, hdm.2, ?_⟩
  · intro n hn
    refine ⟨lookup_of_mem hb.wf.keys_nodup hn, ?_⟩
    rcases getNode_cases g (some n.mapKey) with ⟨h0, _⟩ | ⟨p, hp, _, h1⟩ | ⟨p, hp, hnot, _⟩
    · cases h0
    · injection hp with hp; rw [← hp] at h1; exact h1
    · injection hp with hp
      rw [← hp] at hnot
      exact absurd (List.mem_map_of_mem _ hn) hnot
  · intro n hn r hr
    have hrk := hb.wf.closed n hn r hr
    obtain ⟨m, hm, e⟩ := List.mem_map.mp hrk
    exact ⟨m, hm, e ▸ lookup_of_mem hb.wf.keys_nodup hm⟩
  · rw [r5]
    simp only
    rw [← foldl_setInsert_eq]
    exact (mem_foldl_setInsert [c] _ c).mpr (Or.inr (List.mem_singleton_self c))
  · have := lookup_of_mem hw2.keys_nodup hdm.1
    rw [hdm.2] at this
    exact this
  · by_cases hca : c = a
    · subst hca
      rw [r5]
      simp only
      rw [n5]
    · rw [r6 c hca, n5]

theorem identity_singleton_witness :
    nameOps.all Op.isBuild = true ∧ runOps New nameOps = some nameGraph ∧
    nameGraph.keys.Nodup ∧
      (∀ n ∈ nameGraph.all, nameGraph.lookup n.mapKey = some n ∧
        getNode nameGraph (some n.mapKey) = .ok (nameGraph, n.mapKey)) ∧
      (∀ n ∈ nameGraph.all, ∀ r ∈ n.requires, ∃ m ∈ nameGraph.all, nameGraph.lookup r = some m) ∧
      (Require (Name nameGraph (some 3) "c").1 (some 0) [some 3]).1.keys.Nodup ∧
      3 ∈ ((Require (Name nameGraph (some 3) "c").1 (some 0) [some 3]).1.deref 0).requires ∧
      (Require (Name nameGraph (some 3) "c").1 (some 0) [some 3]).1.lookup 3 =
        some ((Require (Name nameGraph (some 3) "c").1 (some 0) [some 3]).1.deref 3) ∧
      ((Require (Name nameGraph (some 3) "c").1 (some 0) [some 3]).1.deref 3).mapKey = 3 ∧
      ((Require (Name nameGraph (some 3) "c").1 (some 0) [some 3]).1.deref 3).name = "c" :=
  ⟨rfl, rfl, identity_singleton nameOps nameGraph 3 0 "c" rfl rfl⟩

theorem deref_congr {g1 g2 : Graph} (h : g2.all = g1.all) (k : Nat) :
    g2.deref k = g1.deref k := by
  unfold Graph.deref Graph.lookup
  rw [h]

theorem Validate_all {pick : Nat → Nat} {g g2 : Graph} {e : Option Error}
    (h : Validate pick g = some (g2, e)) : g2.all = g.all := by
  unfold Validate at h
  cases hl : validateLoop g.all g.all.length pick [] (validateInit g.all).1
      (validateInit g.all).2 with
  | none => rw [hl] at h; simp at h
  | some v =>
    obtain ⟨ts, sh⟩ := v
    rw [hl] at h
    simp only at h
    split at h
    · simp only [Option.some.injEq, Prod.mk.injEq] at h
      rw [← h.1]
    · simp only [Option.some.injEq, Prod.mk.injEq] at h
      rw [← h.1]

theorem failed_modify_true_mono (g : Graph) (n k : Nat)
    (h : (g.deref k).failed = true) :
    ((g.modify n (fun x => { x with failed := true })).deref k).failed = true := by
  by_cases hk : k = n
  · subst hk
    by_cases hmem : k ∈ g.keys
    · rw [deref_modify_failed_same g (fun _ => true) hmem]
    · have h1 : k ∉ (g.modify k (fun x => { x with failed := true })).keys := by
        rw [keys_modify_failed g k (fun _ => true)]; exact hmem
      rw [deref_of_not_mem h1]
      rw [deref_of_not_mem hmem] at h
      exact h
  · rw [deref_modify_failed_ne g n (fun _ => true) hk]
    exact h

/-- The loop over the requirements either leaves the graph or sets the `failed`
flag of the node. -/
theorem checkRequires_result (n : Nat) : ∀ (rs : List Nat) (g g1 : Graph),
    checkRequires g n rs = .ok g1 →
    g1 = g ∨ g1 = g.modify n (fun x => { x with failed := true }) := by
  intro rs
  induction rs with
  | nil =>
    intro g g1 h
    simp only [checkRequires, Except.ok.injEq] at h
    exact Or.inl h.symm
  | cons r rest ih =>
    intro g g1 h
    unfold checkRequires at h
    by_cases hf : (g.deref r).failed = true
    · simp only [hf, if_true] at h
      cases hd : ((g.modify n (fun x => { x with failed := true })).deref r).done with
      | false =>
        rw [hd] at h
        simp at h
      | true =>
        rw [hd] at h
        simp only [Bool.not_true, Bool.false_eq_true, if_false] at h
        rcases ih _ _ h with h1 | h1
        · exact Or.inr h1
        · right
          rw [h1, modify_failed_idem]
    · have hf0 : (g.deref r).failed = false := by simpa using hf
      simp only [hf0, Bool.false_eq_true, if_false] at h
      cases hd : (g.deref r).done with
      | false =>
        rw [hd] at h
        simp at h
      | true =>
        rw [hd] at h
        simp only [Bool.not_true, Bool.false_eq_true, if_false] at h
        exact ih _ _ h

theorem checkRequires_mono {n : Nat} {rs : List Nat} {g g1 : Graph}
    (h : checkRequires g n rs = .ok g1) (k : Nat) (hk : (g.deref k).failed = true) :
    (g1.deref k).failed = true := by
  rcases checkRequires_result n rs g g1 h with h1 | h1
  · rw [h1]; exact hk
  · rw [h1]; exact failed_modify_true_mono g n k hk

/-- In the loop of `Test`, on any graph, a `failed` flag that is set stays set and
no event added invokes a node whose flag was set at the start. -/
theorem testLoop_failed (t : TestingT) : ∀ (ts : List Nat) (g : Graph) (tr : List Event)
    (gf : Graph) (trf : List Event), testLoop t g tr ts = .ok (gf, trf) →
    (∀ k, (g.deref k).failed = true → (gf.deref k).failed = true) ∧
      ∀ e ∈ trf, e ∈ tr ∨ (e.invoked = true → (g.deref e.key).failed = false) := by
  intro ts
  induction ts with
  | nil =>
    intro g tr gf trf h
    simp only [testLoop, Except.ok.injEq, Prod.mk.injEq] at h
    rw [← h.1, ← h.2]
    exact ⟨fun _ hk => hk, fun e he => Or.inl he⟩
  | cons n rest ih =>
    intro g tr gf trf h
    rw [testLoop] at h
    cases hc : checkRequires g n (g.deref n).requires with
    | error e => rw [hc] at h; cases h
    | ok g1 =>
      rw [hc] at h
      simp only at h
      have hmono := checkRequires_mono hc
      by_cases hf : (g1.deref n).failed = true
      · simp only [hf, if_true] at h
        obtain ⟨i1, i2⟩ := ih _ _ _ _ h
        refine ⟨?_, ?_⟩
        · intro k hk
          apply i1
          rw [failed_modify_done]
          exact hmono k hk
        · intro e he
          rcases i2 e he with h1 | h1
          · rcases List.mem_append.mp h1 with h2 | h2
            · exact Or.inl h2
            · right
              intro hinv
              simp only [List.mem_singleton] at h2
              rw [h2] at hinv
              cases hinv
          · right
            intro hinv
            have h3 := h1 hinv
            rw [failed_modify_done] at h3
            cases h4 : (g.deref e.key).failed with
            | false => rfl
            | true =>
              rw [hmono _ h4] at h3
              cases h3
      · have hf0 : (g1.deref n).failed = false := by simpa using hf
        simp only [hf0, Bool.false_eq_true, if_false, ignoreNilTesting, Bool.not_false,
          Bool.or_true, if_true] at h
        obtain ⟨i1, i2⟩ := ih _ _ _ _ h
        have hstep : ∀ k, (g.deref k).failed = true →
            (((g1.modify n (fun x => { x with failed := !t.Run x.name x.fn })).modify n
              (fun x => { x with done := true })).deref k).failed = true := by
          intro k hk
          rw [failed_modify_done]
          by_cases hkn : k = n
          · subst hkn
            rw [hmono k hk] at hf0
            cases hf0
          · rw [deref_modify_failed_ne g1 n (fun x => !t.Run x.name x.fn) hkn]
            exact hmono k hk
        refine ⟨fun k hk => i1 k (hstep k hk), ?_⟩
        intro e he
        rcases i2 e he with h1 | h1
        · rcases List.mem_append.mp h1 with h2 | h2
          · exact Or.inl h2
          · right
            intro _
            simp only [List.mem_singleton] at h2
            rw [h2]
            simp only
            cases h4 : (g.deref n).failed with
            | false => rfl
            | true =>
              rw [hmono _ h4] at hf0
              cases hf0
        · right
          intro hinv
          have h3 := h1 hinv
          cases h4 : (g.deref e.key).failed with
          | false => rfl
          | true =>
            rw [hstep _ h4] at h3
            cases h3

/-- On any graph, a `Test` call that returns has invoked no node whose `failed`
flag was set when it began, and has left that flag set. -/
theorem Test_failed_stays {pick : Nat → Nat} {t : TestingT} {g : Graph} {r : TestResult}
    (h : Test pick t g = .ret r) (k : Nat) (hk : (g.deref k).failed = true) :
    ¬ Invoked r.trace k ∧ (r.g.deref k).failed = true := by
  have hrun : ∀ g1 : Graph, g1.all = g.all → runTests t g1 = .ret r →
      ¬ Invoked r.trace k ∧ (r.g.deref k).failed = true := by
    intro g1 hall hr
    unfold runTests at hr
    cases hl : testLoop t g1 [] g1.topoSorted with
    | error e => rw [hl] at hr; cases hr
    | ok v =>
      obtain ⟨gf, trf⟩ := v
      rw [hl] at hr
      simp only [Outcome.ret.injEq] at hr
      subst hr
      obtain ⟨i1, i2⟩ := testLoop_failed t _ _ _ _ _ hl
      have hk1 : (g1.deref k).failed = true := by rw [deref_congr hall]; exact hk
      refine ⟨?_, i1 k hk1⟩
      rintro ⟨e, he, hek, hinv⟩
      rcases i2 e he with h1 | h1
      · simp at h1
      · have := h1 hinv
        rw [hek, hk1] at this
        cases this
  unfold Test at h
  by_cases hv : g.validated = true
  · simp only [hv, Bool.not_true, Bool.false_eq_true, if_false] at h
    exact hrun g rfl h
  · have hv2 : g.validated = false := by simpa using hv
    simp only [hv2, Bool.not_false, if_true] at h
    cases hval : Validate pick g with
    | none => rw [hval] at h; cases h
    | some v =>
      obtain ⟨g1, e⟩ := v
      rw [hval] at h
      have hall := Validate_all hval
      cases e with
      | some err =>
        simp only [Outcome.ret.injEq] at h
        subst h
        refine ⟨?_, by rw [deref_congr hall]; exact hk⟩
        rintro ⟨e, he, _⟩
        simp at he
      | none =>
        simp only at h
        exact hrun g1 hall h

theorem failed_modify_requires (g : Graph) (b r k : Nat) :
    ((g.modify b (fun x => { x with requires := x.requires ++ [r] })).deref k).failed =
      (g.deref k).failed :=
  deref_modify_field node.failed g b k (fun _ => rfl) (fun _ => rfl)

theorem failed_modify_name (g : Graph) (p k : Nat) (s : String) :
    ((g.modify p (fun x => { x with name := s })).deref k).failed = (g.deref k).failed :=
  deref_modify_field node.failed g p k (fun _ => rfl) (fun _ => rfl)

theorem addRequires_failed (b : Nat) : ∀ (rns : List Nat) (g : Graph) (k : Nat),
    ((addRequires g b rns).deref k).failed = (g.deref k).failed := by
  intro rns
  induction rns with
  | nil => intro g k; rfl
  | cons r rest ih =>
    intro g k
    unfold addRequires
    split
    · exact ih g k
    · rw [ih, failed_modify_requires]

theorem Require_failed (g : Graph) (before : Option Nat) (require : List (Option Nat))
    (k : Nat) : ((Require g before require).1.deref k).failed = (g.deref k).failed := by
  unfold Require
  simp only
  cases h : getNode { g with validated := false } before with
  | error e => rfl
  | ok v =>
    obtain ⟨g1, b⟩ := v
    have h1 := getNode_grown h
    obtain ⟨i1, _, _, _⟩ := getNodes_grown require g1
    simp only
    cases hh : getNodes g1 require with
    | mk g2 res =>
      rw [hh] at i1
      have hd : g2.deref k = g.deref k := ((Grown_trans h1 i1).deref k).trans rfl
      cases res with
      | error e => simp only; rw [hd]
      | ok rns => simp only; rw [addRequires_failed, hd]

theorem Name_failed (g : Graph) (fn : Option Nat) (s : String) (k : Nat) :
    ((Name g fn s).1.deref k).failed = (g.deref k).failed := by
  unfold Name
  cases h : getNode g fn with
  | error e => rfl
  | ok v =>
    obtain ⟨g1, p⟩ := v
    simp only
    rw [failed_modify_name, (getNode_grown h).deref k]

theorem NameAll_failed : ∀ (ps : List (Option Nat × String)) (g : Graph) (k : Nat),
    ((NameAll g ps).1.deref k).failed = (g.deref k).failed := by
  intro ps
  induction ps with
  | nil => intro g k; rfl
  | cons pr rest ih =>
    intro g k
    have h1 := Name_failed g pr.1 pr.2 k
    unfold NameAll
    cases hh : Name g pr.1 pr.2 with
    | mk g1 res =>
      rw [hh] at h1
      cases res with
      | some e => exact h1
      | none => simp only; rw [ih, h1]

/-- No public call clears a `failed` flag. -/
theorem apply_failed_mono {g g2 : Graph} (o : Op) (h : o.apply g = some g2) (k : Nat)
    (hk : (g.deref k).failed = true) : (g2.deref k).failed = true := by
  cases o with
  | require b rs =>
    simp only [Op.apply, Option.some.injEq] at h
    subst h
    rw [Require_failed]; exact hk
  | name fn s =>
    simp only [Op.apply, Option.some.injEq] at h
    subst h
    rw [Name_failed]; exact hk
  | nameAll ps =>
    simp only [Op.apply, Option.some.injEq] at h
    subst h
    rw [NameAll_failed]; exact hk
  | validate pick =>
    simp only [Op.apply] at h
    cases hv : Validate pick g with
    | none => rw [hv] at h; simp at h
    | some v =>
      obtain ⟨g3, e⟩ := v
      rw [hv] at h
      simp only [Option.map_some', Option.some.injEq] at h
      subst h
      rw [deref_congr (Validate_all hv)]; exact hk
  | test pick t =>
    simp only [Op.apply] at h
    cases ht : Test pick t g with
    | ret r =>
      rw [ht] at h
      simp only [Option.some.injEq] at h
      subst h
      exact (Test_failed_stays ht k hk).2
    | panic e => rw [ht] at h; simp at h
    | diverge => rw [ht] at h; simp at h

theorem runOps_failed_mono : ∀ (ops : List Op) (g g2 : Graph), runOps g ops = some g2 →
    ∀ k, (g.deref k).failed = true → (g2.deref k).failed = true := by
  intro ops
  induction ops with
  | nil =>
    intro g g2 h k hk
    simp only [runOps, Option.some.injEq] at h
    rw [← h]; exact hk
  | cons o rest ih =>
    intro g g2 h k hk
    unfold runOps at h
    cases ho : o.apply g with
    | none => rw [ho] at h; simp at h
    | some g1 =>
      rw [ho] at h
      exact ih g1 g2 h k (apply_failed_mono o ho k hk)

/-- On an unvalidated well-formed graph with a cycle, `Test` returns the error of
`Validate` without processing any node. -/
theorem Test_cyclic (pick : Nat → Nat) (t : TestingT) {g : Graph} (hw : WF g)
    (hv : g.validated = false) (hc : HasCycle g) :
    ∃ ts, Test pick t g =
      .ret (TestResult.mk { g with topoSorted := ts } (some Error.CyclicDependencyErr) []) := by
  rcases Validate_cases pick g hw with ⟨_, ts, h⟩ | ⟨hn, _⟩
  · refine ⟨ts, ?_⟩
    unfold Test
    simp only [hv, Bool.not_false, if_true, h]
  · exact absurd hc hn

/-- On a reachable graph `Test` returns, and every processed node found all its
requirements done. -/
theorem Test_snap (pick : Nat → Nat) (t : TestingT) {g : Graph} (hg : GInv g) :
    ∃ r, Test pick t g = .ret r ∧
      ∀ e ∈ r.trace, ∀ p ∈ (g.deref e.key).requires, (e.before.deref p).done = true := by
  by_cases hv : g.validated = true
  · obtain ⟨gf, trf, hr, hi⟩ := runTests_spec t hg hv
    refine ⟨TestResult.mk gf none trf, ?_, hi.snap⟩
    unfold Test
    simp only [hv, Bool.not_true, Bool.false_eq_true, if_false]
    exact hr
  · have hv2 : g.validated = false := by simpa using hv
    obtain ⟨g2, e, hval, hg2, hall, hcyc, hac⟩ := Validate_GInv pick hg
    by_cases hc : HasCycle g
    · obtain ⟨he, _⟩ := hcyc hc
      subst he
      refine ⟨TestResult.mk g2 (some Error.CyclicDependencyErr) [], ?_, by simp⟩
      unfold Test
      simp only [hv2, Bool.not_false, if_true, hval]
    · obtain ⟨he, hv3⟩ := hac hc
      subst he
      obtain ⟨gf, trf, hr, hi⟩ := runTests_spec t hg2 hv3
      refine ⟨TestResult.mk gf none trf, ?_, ?_⟩
      · unfold Test
        simp only [hv2, Bool.not_false, if_true, hval]
        exact hr
      · intro e he p hp
        apply hi.snap e he p
        rw [deref_congr hall]
        exact hp

theorem validateLoop_length (all : List node) : ∀ (fuel : Nat) (pick : Nat → Nat)
    (ts nd : List Nat) (sh : List (Nat × List Nat)) (ts2 : List Nat)
    (sh2 : List (Nat × List Nat)),
    validateLoop all fuel pick ts nd sh = some (ts2, sh2) →
    ts2.length + sh2.length ≤ ts.length + nd.length + sh.length := by
  intro fuel
  induction fuel with
  | zero =>
    intro pick ts nd sh ts2 sh2 he
    cases nd with
    | nil =>
      simp [validateLoop] at he
      rw [← he.1, ← he.2]; simp
    | cons x xs => simp [validateLoop] at he
  | succ fuel ih =>
    intro pick ts nd sh ts2 sh2 he
    cases nd with
    | nil =>
      simp [validateLoop] at he
      rw [← he.1, ← he.2]; simp
    | cons x xs =>
      simp only [validateLoop] at he
      have h0 := ih _ _ _ _ _ _ he
      have h1 := release_fold_measure ((x :: xs).getD (pick 0 % (x :: xs).length) x) all
        (setDelete (x :: xs) ((x :: xs).getD (pick 0 % (x :: xs).length) x), sh)
      have h2 := length_setDelete_lt (getD_mem_cons x xs (pick 0))
      simp only [List.length_append, List.length_singleton] at h0
      simp only at h1
      omega

theorem validateLoop_fuel_mono (all : List node) : ∀ (fuel : Nat) (pick : Nat → Nat)
    (ts nd : List Nat) (sh : List (Nat × List Nat)) (r : List Nat × List (Nat × List Nat)),
    validateLoop all fuel pick ts nd sh = some r →
    ∀ fuel2, fuel ≤ fuel2 → validateLoop all fuel2 pick ts nd sh = some r := by
  intro fuel
  induction fuel with
  | zero =>
    intro pick ts nd sh r he fuel2 _
    cases nd with
    | nil =>
      cases fuel2 with
      | zero => exact he
      | succ f => simpa [validateLoop] using he
    | cons x xs => simp [validateLoop] at he
  | succ fuel ih =>
    intro pick ts nd sh r he fuel2 hle
    cases nd with
    | nil =>
      cases fuel2 with
      | zero => simpa [validateLoop] using he
      | succ f => simpa [validateLoop] using he
    | cons x xs =>
      cases fuel2 with
      | zero => omega
      | succ f =>
        simp only [validateLoop] at he ⊢
        exact ih _ _ _ _ _ he f (by omega)

/-- C14 fails on the code: after `Require(0, 1)` a first `Test` call returns nil and
leaves node 1 with `done = true`; a second `Test` call on the resulting graph
invokes the callable of node 1 again. -/
theorem Test_again_reinvokes_done :
    edgeOps.all Op.isBuild = true ∧ runOps New edgeOps = some nilGraph ∧
    ∃ r1 r2, Test pickFirst passAll nilGraph = .ret r1 ∧ r1.err = none ∧
      Test pickFirst passAll r1.g = .ret r2 ∧ r2.err = none ∧
      (r1.g.deref 1).done = true ∧ Invoked r2.trace 1 :=
  ⟨rfl, rfl, _, _, rfl, rfl, rfl, rfl, rfl, ⟨_, List.mem_cons_self _ _, rfl, rfl⟩⟩

/-- C14 as amended: on a reachable graph on which `Test` has returned nil, a further
`Test` call returns and does not invoke the callable of any node whose `done` and
`failed` flags are both already set. -/
theorem Test_again_skips_failed (ops : List Op) (g : Graph) (pick1 pick2 : Nat → Nat)
    (t1 t2 : TestingT) (r1 : TestResult) (hrun : runOps New ops = some g)
    (h1 : Test pick1 t1 g = .ret r1) (_hnil : r1.err = none) :
    ∃ r2, Test pick2 t2 r1.g = .ret r2 ∧
      ∀ k, (r1.g.deref k).done = true → (r1.g.deref k).failed = true →
        ¬ Invoked r2.trace k := by
  have hg := runOps_GInv ops New g GInv_New hrun
  obtain ⟨r, hr, hg1, _⟩ := Test_GInv pick1 t1 hg
  rw [h1] at hr
  injection hr with hr
  subst hr
  obtain ⟨r2, hr2, _⟩ := Test_GInv pick2 t2 hg1
  exact ⟨r2, hr2, fun k _ hf => (Test_failed_stays hr2 k hf).1⟩

theorem Test_again_skips_failed_witness :
    runOps New edgeOps = some nilGraph ∧
    (∃ r1, Test pickFirst failAll nilGraph = .ret r1 ∧ r1.err = none ∧
      ∃ r2, Test pickFirst passAll r1.g = .ret r2 ∧
        ∀ k, (r1.g.deref k).done = true → (r1.g.deref k).failed = true →
          ¬ Invoked r2.trace k) :=
  ⟨rfl, _, rfl, rfl,
    Test_again_skips_failed edgeOps nilGraph pickFirst pickFirst failAll passAll _ rfl rfl rfl⟩

/-- C15: on a graph reachable by `Require`, `Name`, `NameAll`, `Validate` and `Test`
calls, when `Validate` returns `CyclicDependencyErr` the graph is left unvalidated,
and a following `Test` call validates again: it returns `CyclicDependencyErr`
without processing any node of the partial order. -/
theorem Validate_error_leaves_unvalidated (ops : List Op) (g g2 : Graph) (pick : Nat → Nat)
    (hrun : runOps New ops = some g)
    (hv : Validate pick g = some (g2, some Error.CyclicDependencyErr)) :
    g2.validated = false ∧
      ∀ pick2 t, ∃ r, Test pick2 t g2 = .ret r ∧
        r.err = some Error.CyclicDependencyErr ∧ r.trace = [] := by
  have hg := runOps_GInv ops New g GInv_New hrun
  obtain ⟨g3, e, hval, hg3, hall, hcyc, hac⟩ := Validate_GInv pick hg
  rw [hv] at hval
  simp only [Option.some.injEq, Prod.mk.injEq] at hval
  obtain ⟨e1, e2⟩ := hval
  subst e1; subst e2
  have hc : HasCycle g := by
    by_contra hn
    have := (hac hn).1
    cases this
  have hvg : g.validated = false := by
    cases hb : g.validated with
    | false => rfl
    | true => exact absurd hc (hg.order hb).1
  have hv2 : g2.validated = false := (hcyc hc).2.trans hvg
  have hc2 : HasCycle g2 := by
    have hrel : ∀ a b, requiresRel g2 a b ↔ requiresRel g a b := by
      intro a b
      unfold requiresRel
      rw [hall]
    exact (HasCycle_congr hrel).mpr hc
  refine ⟨hv2, ?_⟩
  intro pick2 t
  obtain ⟨ts, hr⟩ := Test_cyclic pick2 t hg3.wf hv2 hc2
  exact ⟨_, hr, rfl, rfl⟩

theorem Validate_error_leaves_unvalidated_witness :
    runOps New twoCycleOps = some twoCycle ∧
    Validate pickFirst twoCycle = some (twoCycleStuck, some Error.CyclicDependencyErr) ∧
    twoCycleStuck.validated = false ∧
      ∀ pick2 t, ∃ r, Test pick2 t twoCycleStuck = .ret r ∧
        r.err = some Error.CyclicDependencyErr ∧ r.trace = [] :=
  ⟨rfl, rfl,
    Validate_error_leaves_unvalidated twoCycleOps twoCycle twoCycleStuck pickFirst rfl rfl⟩

/-- C16: on every graph reachable by `Require`, `Name`, `NameAll`, `Validate` and
`Test` calls, `Test` returns, so it does not panic with `FunctionNotExecutedErr`:
whenever a node is processed, every node of its requirement list has `done` set. -/
theorem Test_never_panics (ops : List Op) (g : Graph) (pick : Nat → Nat) (t : TestingT)
    (hrun : runOps New ops = some g) :
    Test pick t g ≠ .panic Error.FunctionNotExecutedErr ∧
      ∃ r, Test pick t g = .ret r ∧
        ∀ e ∈ r.trace, ∀ p ∈ (g.deref e.key).requires, (e.before.deref p).done = true := by
  obtain ⟨r, hr, hs⟩ := Test_snap pick t (runOps_GInv ops New g GInv_New hrun)
  refine ⟨?_, r, hr, hs⟩
  rw [hr]
  intro h
  cases h

theorem Test_never_panics_witness :
    runOps New mixedOps = some mixedGraph ∧
    Test pickFirst passAll mixedGraph ≠ .panic Error.FunctionNotExecutedErr ∧
      ∃ r, Test pickFirst passAll mixedGraph = .ret r ∧
        ∀ e ∈ r.trace, ∀ p ∈ (mixedGraph.deref e.key).requires,
          (e.before.deref p).done = true :=
  ⟨rfl, Test_never_panics mixedOps mixedGraph pickFirst passAll rfl⟩

/-- C19: on every graph and for every choice of plucked nodes `Validate` returns;
the main loop appends at most one entry per registered node, so `topoSorted` has at
most as many entries as the node map, and no larger fuel changes the result; with
distinct keys no node is plucked twice and every plucked node is registered. -/
theorem Validate_terminates (g : Graph) (pick : Nat → Nat) :
    ∃ g2 e, Validate pick g = some (g2, e) ∧
      g2.topoSorted.length ≤ g.all.length ∧
      (∀ fuel, g.all.length ≤ fuel →
        validateLoop g.all fuel pick [] (validateInit g.all).1 (validateInit g.all).2 =
          validateLoop g.all g.all.length pick [] (validateInit g.all).1
            (validateInit g.all).2) ∧
      (g.keys.Nodup → g2.topoSorted.Nodup ∧ ∀ k ∈ g2.topoSorted, k ∈ g.keys) := by
  have hsome := validateLoop_isSome g.all g.all.length pick [] (validateInit g.all).1
    (validateInit g.all).2 (validateInit_measure g.all)
  obtain ⟨⟨ts, sh⟩, hr⟩ := Option.isSome_iff_exists.mp hsome
  have hlen := validateLoop_length g.all _ _ _ _ _ _ _ hr
  have hm := validateInit_measure g.all
  have hts : ts.length ≤ g.all.length := by
    simp only [List.length_nil] at hlen
    omega
  have hV : Validate pick g =
      some (if sh.length != 0 then
          ({ g with topoSorted := ts }, some Error.CyclicDependencyErr)
        else ({ g with topoSorted := ts, validated := true }, none)) := by
    unfold Validate
    rw [hr]
    simp only
    split <;> rfl
  have hfuel : ∀ fuel, g.all.length ≤ fuel →
      validateLoop g.all fuel pick [] (validateInit g.all).1 (validateInit g.all).2 =
        validateLoop g.all g.all.length pick [] (validateInit g.all).1
          (validateInit g.all).2 := by
    intro fuel hle
    rw [hr]
    exact validateLoop_fuel_mono g.all _ _ _ _ _ _ hr fuel hle
  have hnd : g.keys.Nodup → ts.Nodup ∧ ∀ k ∈ ts, k ∈ g.keys := by
    intro hk
    have hi := validateInit_inv hk
    have hinv := validateLoop_inv _ _ _ _ _ _ _ hi.1 hi.2 hr
    exact ⟨hinv.1.ts_nodup, fun k hkt => (hinv.1.cover k).mpr (Or.inl hkt)⟩
  by_cases hs : (sh.length != 0) = true
  · rw [if_pos hs] at hV
    exact ⟨_, _, hV, hts, hfuel, hnd⟩
  · rw [if_neg hs] at hV
    exact ⟨_, _, hV, hts, hfuel, hnd⟩

theorem Validate_terminates_witness :
    twoCycle.keys.Nodup ∧
    ∃ g2 e, Validate pickFirst twoCycle = some (g2, e) ∧
      g2.topoSorted.length ≤ twoCycle.all.length ∧
      (∀ fuel, twoCycle.all.length ≤ fuel →
        validateLoop twoCycle.all fuel pickFirst [] (validateInit twoCycle.all).1
            (validateInit twoCycle.all).2 =
          validateLoop twoCycle.all twoCycle.all.length pickFirst []
            (validateInit twoCycle.all).1 (validateInit twoCycle.all).2) ∧
      (twoCycle.keys.Nodup → g2.topoSorted.Nodup ∧ ∀ k ∈ g2.topoSorted, k ∈ twoCycle.keys) :=
  ⟨by decide, Validate_terminates twoCycle pickFirst⟩

/-- C20: on every graph, a node whose `failed` flag is set when a `Test` call
begins is not invoked in that call and has the flag set when the call returns; no
public call clears the flag, so after any further calls the node is still failed
and a later `Test` call does not invoke it either; on a graph reachable from `New`
the `Test` call does return. -/
theorem failed_is_permanent (g : Graph) (k : Nat) (hf : (g.deref k).failed = true) :
    (∀ pick t r, Test pick t g = .ret r →
        ¬ Invoked r.trace k ∧ (r.g.deref k).failed = true) ∧
      (∀ ops g2, runOps g ops = some g2 →
        (g2.deref k).failed = true ∧
          ∀ pick t r, Test pick t g2 = .ret r →
            ¬ Invoked r.trace k ∧ (r.g.deref k).failed = true) ∧
      (∀ ops0, runOps New ops0 = some g → ∀ pick t, ∃ r, Test pick t g = .ret r) := by
  refine ⟨fun pick t r h => Test_failed_stays h k hf, ?_, ?_⟩
  · intro ops g2 hrun
    have h2 := runOps_failed_mono ops g g2 hrun k hf
    exact ⟨h2, fun pick t r h => Test_failed_stays h k h2⟩
  · intro ops0 hrun pick t
    obtain ⟨r, hr, _⟩ := Test_GInv pick t (runOps_GInv ops0 New g GInv_New hrun)
    exact ⟨r, hr⟩

theorem failed_is_permanent_witness :
    (mixedGraph.deref 1).failed = true ∧
    (∀ pick t r, Test pick t mixedGraph = .ret r →
        ¬ Invoked r.trace 1 ∧ (r.g.deref 1).failed = true) ∧
      (∀ ops g2, runOps mixedGraph ops = some g2 →
        (g2.deref 1).failed = true ∧
          ∀ pick t r, Test pick t g2 = .ret r →
            ¬ Invoked r.trace 1 ∧ (r.g.deref 1).failed = true) ∧
      (∀ ops0, runOps New ops0 = some mixedGraph →
        ∀ pick t, ∃ r, Test pick t mixedGraph = .ret r) :=
  ⟨rfl, failed_is_permanent mixedGraph 1 rfl⟩

end testdep
